import Mathlib

/-!
Verification development for the "vault-index-cloud" S3 bucket-browser
application.  The JavaScript sources are shallowly embedded: JS strings are
modelled as `List Char`, JS numbers as `Int`/`Nat`, JS array methods as the
corresponding list functions, thrown exceptions as `Except`, and the mutable
`this.configs` array of `BucketConfigService` as explicit state passing.
`Array.prototype.sort` (stable since ES2019) is modelled by the stable
`List.mergeSort`, and `String.prototype.localeCompare` by code-unit
lexicographic collation.
-/

/-! ## JS string primitives over `List Char` -/

/-- JS `String.prototype.toLowerCase`, modelled per character. -/
def lowerStr (s : List Char) : List Char := s.map Char.toLower

/-- Code-unit lexicographic strict comparison of strings (the JS `<`
operator on strings, and the collation used to model `localeCompare`). -/
def ltChars : List Char → List Char → Bool
  | [], [] => false
  | [], _ :: _ => true
  | _ :: _, [] => false
  | a :: as, b :: bs => if a < b then true else if b < a then false else ltChars as bs

/-- Three-way comparison derived from `ltChars`; models the sign of
`a.localeCompare(b)` under code-unit collation. -/
def compareChars (a b : List Char) : Int :=
  if ltChars a b then -1 else if ltChars b a then 1 else 0

/-- JS `String.prototype.split` with a single-character separator.
Like the JS version it always returns at least one (possibly empty) piece. -/
def splitChar (c : Char) : List Char → List (List Char)
  | [] => [[]]
  | x :: xs =>
    if x = c then [] :: splitChar c xs
    else
      match splitChar c xs with
      | [] => [[x]]
      | h :: t => (x :: h) :: t

/-- JS `Array.prototype.join` with a single-character separator. -/
def joinChar (c : Char) : List (List Char) → List Char
  | [] => []
  | [s] => s
  | s :: rest => s ++ c :: joinChar c rest

/-- Last index of character `c` in the string, as JS
`lastIndexOf` without a `fromIndex` (but `Option`-valued; `none` is JS `-1`). -/
def lastIdxOf (c : Char) : List Char → Option Nat
  | [] => none
  | x :: xs =>
    match lastIdxOf c xs with
    | some i => some (i + 1)
    | none => if x = c then some 0 else none

/-- Convert the `Option`-valued index to the JS convention (`-1` for absent). -/
def optIdxToJs : Option Nat → Int
  | none => -1
  | some i => (i : Int)

/-- JS `s.lastIndexOf(c, fromIdx)` for a one-character search string: the
`fromIndex` is clamped to `[0, s.length]` and the match position must be
`≤ fromIndex`, hence the `take (f + 1)`. -/
def jsLastIndexOfFrom (s : List Char) (c : Char) (fromIdx : Int) : Int :=
  let f : Nat := if fromIdx < 0 then 0 else min fromIdx.toNat s.length
  optIdxToJs (lastIdxOf c (s.take (f + 1)))

/-- JS `String.prototype.slice` with possibly negative indices. -/
def jsSlice (s : List Char) (start endI : Int) : List Char :=
  let n := s.length
  let st : Nat := if start < 0 then ((n : Int) + start).toNat else min start.toNat n
  let en : Nat := if endI < 0 then ((n : Int) + endI).toNat else min endI.toNat n
  (s.take en).drop st

/-- JS `s.endsWith(c)` for a one-character argument. -/
def jsEndsWithChar (s : List Char) (c : Char) : Bool :=
  match s.getLast? with
  | some x => x = c
  | none => false

/-- JS `hay.includes(needle)`: contiguous substring test. -/
def jsIncludes : List Char → List Char → Bool
  | [], needle => needle.isPrefixOf []
  | x :: t, needle => needle.isPrefixOf (x :: t) || jsIncludes t needle

/-- JS `s || d` for strings: the empty string is falsy. -/
def jsOrDefault (s d : List Char) : List Char := if s = [] then d else s

/-! ## BucketConfigService (src/unnamed/part_002; part_003 differs only in
timestamps and `makeSerializable` copies of returned objects) -/

/-- A stored bucket configuration.  Mock data and the configuration form
always populate all credential fields, so they are plain strings here. -/
structure Config where
  Id : Int
  name : String
  accessKey : String
  secretKey : String
  region : String
  bucketName : String
  isActive : Bool
deriving DecidableEq, Repr

/-- Default configuration used only to totalize list indexing. -/
def defCfg : Config := ⟨0, "", "", "", "", "", false⟩

/-- Payload passed to `create`/`update`: a JS object whose fields may each be
absent (`none`).  The service never reads an `Id` from the payload and the UI
never sends one. -/
structure ConfigData where
  name : Option String
  accessKey : Option String
  secretKey : Option String
  region : Option String
  bucketName : Option String
  isActive : Option Bool
deriving DecidableEq

/-- JS truthiness of a possibly-absent boolean field
(`if (configData.isActive)`). -/
def jsTruthy (b : Option Bool) : Bool := b.getD false

/-- `c.isActive = false`, the body of the deactivation `forEach` loops. -/
def deact (c : Config) : Config := { c with isActive := false }

/-- `Math.max(...this.configs.map(c => c.Id), 0)`. -/
def maxId (cfgs : List Config) : Int := (cfgs.map (·.Id)).foldr max 0

/-- JS `Array.prototype.findIndex` (`Option`-valued; `none` is JS `-1`). -/
def jsFindIndex (p : α → Bool) : List α → Option Nat
  | [] => none
  | x :: xs => if p x then some 0 else (jsFindIndex p xs).map (· + 1)

/-- In-place update of one array slot, `this.configs[index] = ...`. -/
def updateAt : Nat → (α → α) → List α → List α
  | _, _, [] => []
  | 0, f, x :: xs => f x :: xs
  | n + 1, f, x :: xs => x :: updateAt n f xs

/-- The object literal built by `create`: spread of `configData` over the
fresh `Id`, then `isActive: true` overriding any payload value. -/
def createCfg (d : ConfigData) (cfgs : List Config) : Config :=
  { Id := maxId cfgs + 1
    name := d.name.getD ""
    accessKey := d.accessKey.getD ""
    secretKey := d.secretKey.getD ""
    region := d.region.getD ""
    bucketName := d.bucketName.getD ""
    isActive := true }

/-- `{ ...this.configs[index], ...configData }`: payload fields override. -/
def mergeCfg (c : Config) (d : ConfigData) : Config :=
  { Id := c.Id
    name := d.name.getD c.name
    accessKey := d.accessKey.getD c.accessKey
    secretKey := d.secretKey.getD c.secretKey
    region := d.region.getD c.region
    bucketName := d.bucketName.getD c.bucketName
    isActive := d.isActive.getD c.isActive }

/-- The error message thrown by the four id-keyed operations. -/
def cfgNotFound : String := "Configuration not found"

/-- `BucketConfigService.getById`: find by `Id === parseInt(id)`, throw if
absent; no mutation.  The `id` argument is modelled post-`parseInt`. -/
def bucketGetById (i : Int) (cfgs : List Config) :
    Except String Config × List Config :=
  match cfgs.find? (fun c => c.Id == i) with
  | none => (Except.error cfgNotFound, cfgs)
  | some c => (Except.ok c, cfgs)

/-- `BucketConfigService.create`: deactivate every stored configuration, then
push a new one that is active. -/
def bucketCreate (d : ConfigData) (cfgs : List Config) :
    Except String Config × List Config :=
  let cfgs1 := cfgs.map deact
  let newC := createCfg d cfgs1
  (Except.ok newC, cfgs1 ++ [newC])

/-- `BucketConfigService.update`: find the index (throw before any mutation
if absent), deactivate all configurations when the payload's `isActive` is
truthy, then overwrite the slot with the merged object. -/
def bucketUpdate (i : Int) (d : ConfigData) (cfgs : List Config) :
    Except String Config × List Config :=
  match jsFindIndex (fun c => c.Id == i) cfgs with
  | none => (Except.error cfgNotFound, cfgs)
  | some ix =>
    let cfgs1 := if jsTruthy d.isActive then cfgs.map deact else cfgs
    let cfgs2 := updateAt ix (fun c => mergeCfg c d) cfgs1
    (Except.ok (mergeCfg (cfgs1.getD ix defCfg) d), cfgs2)

/-- `BucketConfigService.delete`: find the index (throw before any mutation
if absent), then `splice` it out. -/
def bucketDelete (i : Int) (cfgs : List Config) :
    Except String Bool × List Config :=
  match jsFindIndex (fun c => c.Id == i) cfgs with
  | none => (Except.error cfgNotFound, cfgs)
  | some ix => (Except.ok true, cfgs.eraseIdx ix)

/-- `BucketConfigService.setActive`: find the configuration (throw before any
mutation if absent), deactivate all, then activate the found one.  The JS
`find` returns a reference to the first match, which the code then mutates;
this is the slot at the index of the first match. -/
def bucketSetActive (i : Int) (cfgs : List Config) :
    Except String Config × List Config :=
  match jsFindIndex (fun c => c.Id == i) cfgs with
  | none => (Except.error cfgNotFound, cfgs)
  | some ix =>
    let cfgs1 := cfgs.map deact
    let cfgs2 := updateAt ix (fun c => { c with isActive := true }) cfgs1
    (Except.ok { cfgs1.getD ix defCfg with isActive := true }, cfgs2)

/-- The state-changing operations of the service. -/
inductive BucketOp where
  | opCreate (d : ConfigData)
  | opUpdate (i : Int) (d : ConfigData)
  | opDelete (i : Int)
  | opSetActive (i : Int)

/-- State transition of one operation (a thrown operation leaves the stored
list unchanged, which the definitions above return explicitly). -/
def applyOp (op : BucketOp) (s : List Config) : List Config :=
  match op with
  | .opCreate d => (bucketCreate d s).2
  | .opUpdate i d => (bucketUpdate i d s).2
  | .opDelete i => (bucketDelete i s).2
  | .opSetActive i => (bucketSetActive i s).2

/-- Run a sequence of operations from an initial stored list. -/
def runOps (ops : List BucketOp) (s : List Config) : List Config :=
  ops.foldl (fun st op => applyOp op st) s

/-- Number of configurations flagged active. -/
def activeCount (s : List Config) : Nat := s.countP (·.isActive)

/-- `Id`s of the stored configurations are pairwise distinct. -/
def nodupIds (s : List Config) : Prop := (s.map (·.Id)).Nodup

/-! ## S3Service.listFiles (src/src/services/api/s3Service.js lines 88-139;
src/unnamed/part_003 lines 187-236 is the same code without the
`makeSerializable` wrappers, which are identity on these records of
primitives) -/

/-- An entry of the file/folder listing returned by `listFiles`. -/
structure FileEntry where
  key : List Char
  name : List Char
  size : Nat
  lastModified : List Char
  type : List Char
  etag : List Char
  isFolder : Bool
deriving DecidableEq

/-- One object of a `ListObjectsV2` response's `Contents`.  `LastModified`
is carried as its ISO string (`obj.LastModified.toISOString()`). -/
structure S3Object where
  Key : List Char
  Size : Nat
  LastModifiedIso : List Char
  ETag : List Char
deriving DecidableEq

/-- A `ListObjectsV2` response: the `Prefix` strings of `CommonPrefixes`
plus `Contents`. -/
structure S3Response where
  CommonPrefixes : List (List Char)
  Contents : List S3Object
deriving DecidableEq

/-- The mime-type table of `getFileType`, keyed by lowercased extension. -/
def mimeOf (ext : List Char) : List Char :=
  if ext = "pdf".toList then "application/pdf".toList
  else if ext = "jpg".toList then "image/jpeg".toList
  else if ext = "jpeg".toList then "image/jpeg".toList
  else if ext = "png".toList then "image/png".toList
  else if ext = "gif".toList then "image/gif".toList
  else if ext = "mp4".toList then "video/mp4".toList
  else if ext = "mp3".toList then "audio/mpeg".toList
  else if ext = "zip".toList then "application/zip".toList
  else if ext = "docx".toList then
    "application/vnd.openxmlformats-officedocument.wordprocessingml.document".toList
  else if ext = "txt".toList then "text/plain".toList
  else if ext = "csv".toList then "text/csv".toList
  else if ext = "json".toList then "application/json".toList
  else "application/octet-stream".toList

/-- `getFileType`: `key.split('.').pop().toLowerCase()` looked up in the
mime table. -/
def getFileType (key : List Char) : List Char :=
  mimeOf (lowerStr ((splitChar '.' key).getLastD []))

/-- The folder-name computation of `listFiles`:
`prefix.Prefix.slice(prefix.Prefix.lastIndexOf('/', prefix.Prefix.length - 2) + 1, -1)`. -/
def folderNameOf (p : List Char) : List Char :=
  jsSlice p (jsLastIndexOfFrom p '/' ((p.length : Int) - 2) + 1) (-1)

/-- The folder entry `listFiles` builds from one common prefix `p`; `now` is
`new Date().toISOString()`. -/
def folderEntry (now p : List Char) : FileEntry :=
  { key := jsSlice p 0 (-1)
    name := folderNameOf p
    size := 0
    lastModified := now
    type := "folder".toList
    etag := []
    isFolder := true }

/-- The file entry `listFiles` builds from one `Contents` object. -/
def fileEntryOf (o : S3Object) : FileEntry :=
  { key := o.Key
    name := (splitChar '/' o.Key).getLastD []
    size := o.Size
    lastModified := o.LastModifiedIso
    type := getFileType o.Key
    etag := o.ETag
    isFolder := false }

/-- The listing prefix: `path ? `${path}/` : ''`. -/
def listPrefixOf (path : List Char) : List Char :=
  if path = [] then [] else path ++ ['/']

/-- The comparator passed to `.sort(...)` in `listFiles`: folders first,
then by name under (code-unit-modelled) `localeCompare`. -/
def fileCmp (a b : FileEntry) : Int :=
  if a.isFolder && !b.isFolder then -1
  else if !a.isFolder && b.isFolder then 1
  else compareChars a.name b.name

/-- `fileCmp a b ≤ 0`, the order actually established by a consistent
comparator-based sort. -/
def entryLe (a b : FileEntry) : Bool := decide (fileCmp a b ≤ 0)

/-- `S3Service.listFiles` applied to one `ListObjectsV2` response: folder
entries from `CommonPrefixes`, file entries from `Contents` minus the
listing prefix itself, concatenated and sorted. -/
def listFiles (path : List Char) (resp : S3Response) (now : List Char) :
    List FileEntry :=
  let pfx := listPrefixOf path
  let folders := resp.CommonPrefixes.map (folderEntry now)
  let files := (resp.Contents.filter (fun o => decide (o.Key ≠ pfx))).map fileEntryOf
  (folders ++ files).mergeSort entryLe

/-- The effective key of `extractFileMetadata`: `key || s3Object.Key || ''`
(the `key` argument may be absent; the empty string is falsy). -/
def effectiveKey (k : Option (List Char)) (o : S3Object) : List Char :=
  match k with
  | some s => if s = [] then o.Key else s
  | none => o.Key

/-- `extractFileMetadata` (s3Service.js lines 40-50); its outer
`makeSerializable` is the identity on this record of primitives. -/
def extractFileMetadata (o : S3Object) (k : Option (List Char)) : FileEntry :=
  { key := effectiveKey k o
    name := jsOrDefault ((splitChar '/' (effectiveKey k o)).getLastD []) "Unknown".toList
    size := o.Size
    lastModified := o.LastModifiedIso
    type := getFileType (effectiveKey k o)
    etag := o.ETag
    isFolder := jsEndsWithChar (effectiveKey k o) '/' }

/-- Spec-side description of the name of a folder entry: the last
'/'-separated path segment of the prefix once its trailing slash is
removed. -/
def lastSegment (p : List Char) : List Char :=
  (splitChar '/' p.dropLast).getLastD []

/-! ## FileBrowser.filterAndSortFiles
(src/src/components/organisms/FileBrowser.jsx lines 46-88) -/

/-- An entry as seen by the browser table.  `lastModified` is carried as the
numeric value of `new Date(file.lastModified)`, which is what the `modified`
comparator branch compares. -/
structure BrowserEntry where
  key : List Char
  name : List Char
  size : Nat
  lastModified : Int
  isFolder : Bool
deriving DecidableEq

/-- The three sort columns offered by the UI (the comparator's `default`
branch duplicates `name`). -/
inductive SortColumn where
  | name
  | size
  | modified
deriving DecidableEq

/-- Ascending or descending sort order. -/
inductive SortOrder where
  | asc
  | desc
deriving DecidableEq

/-- `aValue < bValue` for the selected column (`name` compares the
lowercased names with JS string `<`). -/
def colLt (col : SortColumn) (a b : BrowserEntry) : Bool :=
  match col with
  | .name => ltChars (lowerStr a.name) (lowerStr b.name)
  | .size => decide (a.size < b.size)
  | .modified => decide (a.lastModified < b.lastModified)

/-- The comparator of `filterAndSortFiles`: folders first regardless of
order, then three-way comparison of the selected column flipped by the
order. -/
def browserCmp (col : SortColumn) (ord : SortOrder) (a b : BrowserEntry) :
    Int :=
  if a.isFolder && !b.isFolder then -1
  else if !a.isFolder && b.isFolder then 1
  else if colLt col a b then
    match ord with
    | .asc => -1
    | .desc => 1
  else if colLt col b a then
    match ord with
    | .asc => 1
    | .desc => -1
  else 0

/-- `browserCmp ... ≤ 0`, the order established by the sort. -/
def browserLe (col : SortColumn) (ord : SortOrder) (a b : BrowserEntry) :
    Bool := decide (browserCmp col ord a b ≤ 0)

/-- The search filter:
`file.name.toLowerCase().includes(searchQuery.toLowerCase())`. -/
def searchPred (q : List Char) (f : BrowserEntry) : Bool :=
  jsIncludes (lowerStr f.name) (lowerStr q)

/-- `filterAndSortFiles`: filter by the query when it is truthy (non-empty),
then sort with the comparator. -/
def filterAndSortFiles (files : List BrowserEntry) (q : List Char)
    (col : SortColumn) (ord : SortOrder) : List BrowserEntry :=
  let filtered := if q = [] then files else files.filter (searchPred q)
  filtered.mergeSort (browserLe col ord)

/-! ## Breadcrumbs (FileBrowser.getBreadcrumbs lines 203-211 and
S3Service.getPathBreadcrumbs lines 361-371) -/

/-- One breadcrumb: the segment and the path up to it. -/
structure Crumb where
  name : List Char
  path : List Char
deriving DecidableEq

/-- JS `Array.prototype.map` whose callback receives the index. -/
def mapIdxFrom (f : Nat → α → β) : Nat → List α → List β
  | _, [] => []
  | k, x :: xs => f k x :: mapIdxFrom f (k + 1) xs

/-- `FileBrowser.getBreadcrumbs`: empty for a falsy path, otherwise one
crumb per '/'-separated part, with the path joined from the first `i + 1`
parts. -/
def getBreadcrumbs (currentPath : List Char) : List Crumb :=
  if currentPath = [] then []
  else
    let parts := splitChar '/' currentPath
    mapIdxFrom (fun i part => ⟨part, joinChar '/' (parts.take (i + 1))⟩) 0 parts

/-- `S3Service.getPathBreadcrumbs`: the same computation (its
`makeSerializable` wrapper is the identity on these records). -/
def getPathBreadcrumbs (currentPath : List Char) : List Crumb :=
  if currentPath = [] then []
  else
    let parts := splitChar '/' currentPath
    mapIdxFrom (fun i part => ⟨part, joinChar '/' (parts.take (i + 1))⟩) 0 parts

/-! ## Share URLs -/

/-- Modelled from the spec: the repository's service layer implementation of
`s3Service.generateShareUrl` is not under src/ (only its caller in the share
dialog, src/unnamed/part_004 lines 641-652, is).  Per the spec glossary a
presigned/share URL is a "Time-limited URL granting temporary read access to
an object", modelled as the object key plus a validity window. -/
structure ShareUrl where
  objectKey : List Char
  issuedAt : Nat
  expiresAt : Nat
deriving DecidableEq

/-- Modelled from the spec: `generateShareUrl(key, expirySeconds)` issues a
URL for `key` valid for `expirySeconds` seconds from now. -/
def generateShareUrl (now : Nat) (key : List Char) (expirySeconds : Nat) :
    ShareUrl :=
  ⟨key, now, now + expirySeconds⟩

/-- Modelled from the spec: a share URL grants read access to exactly its
object, and only until it expires. -/
def shareUrlGrantsRead (u : ShareUrl) (k : List Char) (t : Nat) : Bool :=
  decide (u.objectKey = k) && decide (t ≤ u.expiresAt)

/-- The share dialog's call
`s3Service.generateShareUrl(file.key, expiresIn * 3600)` (hours to
seconds). -/
def shareOperation (now : Nat) (key : List Char) (expiresInHours : Nat) :
    ShareUrl :=
  generateShareUrl now key (expiresInHours * 3600)

/-! ## Defensive serialization (makeSerializable in s3Service.js lines 7-17,
deepSerialize and serializeObject in src/unnamed/part_000 lines 32-88).
JS runtime values are modelled as trees: `vdate` carries its ISO string,
`verr` stands for the non-cloneable specials (Request/Response/File/Blob/
Error) with its `toString` text.  Reference sharing and cycles are not
representable in a tree, so `serializeObject`'s `visited` set never fires
here (the heap model below covers it). -/

mutual
inductive JsValue where
  | vnull
  | vundef
  | vbool (b : Bool)
  | vnum (n : Int)
  | vstr (s : String)
  | vbig (n : Int)
  | vfun
  | vdate (iso : String)
  | verr (msg : String)
  | varr (elems : JsElems)
  | vobj (fields : JsFields)
deriving DecidableEq
inductive JsElems where
  | nil
  | cons (v : JsValue) (rest : JsElems)
deriving DecidableEq
inductive JsFields where
  | nil
  | cons (k : String) (v : JsValue) (rest : JsFields)
deriving DecidableEq
end

/-- `typeof x === 'object'` for a non-null value (arrays, plain objects,
dates and the special objects; `null` is handled before this test in
all the serialization helpers). -/
def isObjectType : JsValue → Bool
  | .varr _ => true
  | .vobj _ => true
  | .vdate _ => true
  | .verr _ => true
  | _ => false

mutual
/-- `JSON.stringify` composed with `JSON.parse`, at the value level:
`.error ()` is a throw (only BigInt throws), `.ok none` is the undefined
result (undefined/functions), dates stringify via `toJSON` to their ISO
string, the specials have no enumerable own properties and stringify to
`{}`, undefined/function array elements become `null`, and
undefined/function object fields are dropped. -/
def jsonOf : JsValue → Except Unit (Option JsValue)
  | .vnull => .ok (some .vnull)
  | .vundef => .ok none
  | .vbool b => .ok (some (.vbool b))
  | .vnum n => .ok (some (.vnum n))
  | .vstr s => .ok (some (.vstr s))
  | .vbig _ => .error ()
  | .vfun => .ok none
  | .vdate iso => .ok (some (.vstr iso))
  | .verr _ => .ok (some (.vobj .nil))
  | .varr es => do
    let r ← jsonElems es
    .ok (some (.varr r))
  | .vobj fs => do
    let r ← jsonFields fs
    .ok (some (.vobj r))
def jsonElems : JsElems → Except Unit JsElems
  | .nil => .ok .nil
  | .cons v rest => do
    let rv ← jsonOf v
    let rr ← jsonElems rest
    match rv with
    | some w => .ok (.cons w rr)
    | none => .ok (.cons .vnull rr)
def jsonFields : JsFields → Except Unit JsFields
  | .nil => .ok .nil
  | .cons k v rest => do
    let rv ← jsonOf v
    let rr ← jsonFields rest
    match rv with
    | some w => .ok (.cons k w rr)
    | none => .ok rr
end

/-- `JSON.parse(JSON.stringify(x))` as used in the try blocks: a throw of
`stringify`, or `parse` applied to the undefined result, lands in the catch
(`none`). -/
def roundTrip (x : JsValue) : Option JsValue :=
  match jsonOf x with
  | .error _ => none
  | .ok none => none
  | .ok (some v) => some v

/-- `makeSerializable` (s3Service.js lines 7-17): null/undefined and
non-objects are returned unchanged, objects are JSON round-tripped, and a
failing round trip yields `{}`. -/
def makeSerializable (x : JsValue) : JsValue :=
  if isObjectType x then
    match roundTrip x with
    | some v => v
    | none => .vobj .nil
  else x

mutual
/-- `serializeObject` (part_000 lines 32-76) on tree-shaped values, where
the `visited` WeakSet never fires: non-objects unchanged, arrays mapped,
specials replaced by `{type, toString}`, dates by their ISO string, plain
objects recursed field by field (the per-field catch is dead code as this
function never throws). -/
def serializeObjectPure : JsValue → JsValue
  | .vnull => .vnull
  | .vundef => .vundef
  | .vbool b => .vbool b
  | .vnum n => .vnum n
  | .vstr s => .vstr s
  | .vbig n => .vbig n
  | .vfun => .vfun
  | .varr es => .varr (serializeElems es)
  | .verr msg =>
    .vobj (.cons "type" (.vstr "Error") (.cons "toString" (.vstr msg) .nil))
  | .vdate iso => .vstr iso
  | .vobj fs => .vobj (serializeFields fs)
def serializeElems : JsElems → JsElems
  | .nil => .nil
  | .cons v r => .cons (serializeObjectPure v) (serializeElems r)
def serializeFields : JsFields → JsFields
  | .nil => .nil
  | .cons k v r => .cons k (serializeObjectPure v) (serializeFields r)
end

/-- `deepSerialize` (part_000 lines 79-88): JSON round trip, falling back to
`serializeObject` when the round trip throws. -/
def deepSerialize (x : JsValue) : JsValue :=
  match roundTrip x with
  | some v => v
  | none => serializeObjectPure x

mutual
/-- Values in the image of a successful JSON round trip: null, booleans,
numbers, strings, arrays and objects of such. -/
def isPureJson : JsValue → Bool
  | .vnull => true
  | .vbool _ => true
  | .vnum _ => true
  | .vstr _ => true
  | .varr es => pureJsonElems es
  | .vobj fs => pureJsonFields fs
  | _ => false
def pureJsonElems : JsElems → Bool
  | .nil => true
  | .cons v r => isPureJson v && pureJsonElems r
def pureJsonFields : JsFields → Bool
  | .nil => true
  | .cons _ v r => isPureJson v && pureJsonFields r
end

mutual
/-- A BigInt occurs somewhere in the value (the only way
`JSON.stringify` throws on a tree). -/
def hasBigInt : JsValue → Bool
  | .vbig _ => true
  | .varr es => elemsHaveBigInt es
  | .vobj fs => fieldsHaveBigInt fs
  | _ => false
def elemsHaveBigInt : JsElems → Bool
  | .nil => false
  | .cons v r => hasBigInt v || elemsHaveBigInt r
def fieldsHaveBigInt : JsFields → Bool
  | .nil => false
  | .cons _ v r => hasBigInt v || fieldsHaveBigInt r
end

/-! ## serializeObject on object graphs (src/unnamed/part_000 lines 32-76,
FileUploader.jsx lines 37-117).  To state termination on cyclic object
graphs the runtime heap is explicit: numbered nodes hold the object
contents, references are atoms or node ids, and the mutated `visited`
WeakSet is threaded as a growing `Finset` of node ids.  The recursion is
fuelled; the theorem shows fuel larger than the number of not-yet-visited
nodes is never exhausted. -/

/-- Primitive (non-object) runtime values. -/
inductive HPrim where
  | hnull
  | hundef
  | hbool (b : Bool)
  | hnum (n : Int)
  | hstr (s : String)
  | hbig (n : Int)
  | hfun
deriving DecidableEq

/-- A reference: a primitive or a pointer to a heap node. -/
inductive HRef where
  | atom (p : HPrim)
  | node (id : Nat)
deriving DecidableEq

/-- Contents of a heap node: an array, a plain object, a non-cloneable
special (Request/Response/File/Blob/Error) or a Date. -/
inductive HNodeVal where
  | harr (elems : List HRef)
  | hobj (fields : List (String × HRef))
  | hspecial (ctor : String) (toStr : String)
  | hdate (iso : String)
deriving DecidableEq

/-- The object heap. -/
abbrev Heap := List (Nat × HNodeVal)

/-- Primitives serialize to themselves
(`obj === null || typeof obj !== 'object'`). -/
def primToJs : HPrim → JsValue
  | .hnull => .vnull
  | .hundef => .vundef
  | .hbool b => .vbool b
  | .hnum n => .vnum n
  | .hstr s => .vstr s
  | .hbig n => .vbig n
  | .hfun => .vfun

/-- Node ids present in the heap. -/
def heapIds (h : Heap) : Finset Nat := (h.map Prod.fst).toFinset

/-- Nodes of the heap not yet in the visited set. -/
def unvisited (h : Heap) (v : Finset Nat) : Nat := (heapIds h \ v).card

mutual
/-- `serializeObject(obj, visited)` on a heap reference, with fuel:
revisited nodes yield the `'[Circular Reference]'` marker, fresh nodes are
added to `visited` before their contents are recursed into, and the updated
`visited` flows to the following siblings exactly as the shared mutable
WeakSet does. -/
def serializeRef : Nat → Heap → Finset Nat → HRef → Option (JsValue × Finset Nat)
  | 0, _, _, _ => none
  | _ + 1, _, visited, .atom p => some (primToJs p, visited)
  | fuel + 1, h, visited, .node i =>
    if i ∈ visited then some (.vstr "[Circular Reference]", visited)
    else
      match h.lookup i with
      | none => some (.vundef, visited)
      | some (.harr elems) =>
        match serializeElemsH fuel h (insert i visited) elems with
        | none => none
        | some (es, v2) => some (.varr es, v2)
      | some (.hobj fields) =>
        match serializeFieldsH fuel h (insert i visited) fields with
        | none => none
        | some (fs, v2) => some (.vobj fs, v2)
      | some (.hspecial ctor toStr) =>
        some (.vobj (.cons "type" (.vstr ctor)
          (.cons "toString" (.vstr toStr) .nil)), insert i visited)
      | some (.hdate iso) => some (.vstr iso, insert i visited)
termination_by fuel _ _ _ => (fuel, 0)
def serializeElemsH : Nat → Heap → Finset Nat → List HRef → Option (JsElems × Finset Nat)
  | _, _, visited, [] => some (.nil, visited)
  | fuel, h, visited, r :: rs =>
    match serializeRef fuel h visited r with
    | none => none
    | some (x, v1) =>
      match serializeElemsH fuel h v1 rs with
      | none => none
      | some (xs, v2) => some (.cons x xs, v2)
termination_by fuel _ _ rs => (fuel, rs.length + 1)
def serializeFieldsH : Nat → Heap → Finset Nat → List (String × HRef) → Option (JsFields × Finset Nat)
  | _, _, visited, [] => some (.nil, visited)
  | fuel, h, visited, (k, r) :: rs =>
    match serializeRef fuel h visited r with
    | none => none
    | some (x, v1) =>
      match serializeFieldsH fuel h v1 rs with
      | none => none
      | some (xs, v2) => some (.cons k x xs, v2)
termination_by fuel _ _ rs => (fuel, rs.length + 1)
end

/-! ## Sample data for witnesses -/

/-- A sample stored configuration. -/
def sampleCfg : Config := ⟨1, "work", "AK", "SK", "us-east-1", "bkt", true⟩

/-- A second sample stored configuration, inactive. -/
def sampleCfg2 : Config := ⟨2, "home", "AK2", "SK2", "eu-west-1", "bkt2", false⟩

/-- A sample stored list. -/
def sampleInit : List Config := [sampleCfg, sampleCfg2]

/-- A sample create/update payload. -/
def sampleData : ConfigData :=
  ⟨some "new", some "AK3", some "SK3", some "us-west-2", some "bkt3", none⟩

/-- A sample operation sequence. -/
def sampleOps : List BucketOp :=
  [BucketOp.opCreate sampleData, BucketOp.opSetActive 1,
   BucketOp.opUpdate 2 sampleData, BucketOp.opDelete 3]

/-- A one-node cyclic heap: `{ self: <itself> }`. -/
def cycHeap : Heap := [(0, HNodeVal.hobj [("self", HRef.node 0)])]

/-- The configuration produced by `create` on the sample state. -/
def sampleCreated : Config := ⟨3, "new", "AK3", "SK3", "us-west-2", "bkt3", true⟩

/-- The configuration returned by `setActive 2` on the sample state. -/
def sampleActivated : Config := ⟨2, "home", "AK2", "SK2", "eu-west-1", "bkt2", true⟩

/-- A sample `Contents` object. -/
def sampleObj : S3Object := ⟨['a', '.', 't', 'x', 't'], 3, ['t'], ['e']⟩

/-- A sample `ListObjectsV2` response with one common prefix and one file. -/
def sampleResp : S3Response := ⟨[['d', 'o', 'c', 's', '/']], [sampleObj]⟩

/-- Sample browser entries: two files and a folder. -/
def sampleEntries : List BrowserEntry :=
  [⟨['x'], ['b', 'a'], 5, 10, false⟩, ⟨['y'], ['a'], 0, 5, true⟩,
   ⟨['z'], ['c'], 1, 7, false⟩]

/-- An object whose JSON round trip throws: `{ a: 1n }` (BigInt). -/
def failObj : JsValue := JsValue.vobj (JsFields.cons "a" (JsValue.vbig 1) JsFields.nil)

/-! ### Bucket service lemmas -/

@[simp] theorem updateAt_nil (n : Nat) (f : α → α) : updateAt n f [] = [] := by
  cases n <;> rfl

@[simp] theorem updateAt_zero_cons (f : α → α) (x : α) (xs : List α) :
    updateAt 0 f (x :: xs) = f x :: xs := rfl

@[simp] theorem updateAt_succ_cons (n : Nat) (f : α → α) (x : α) (xs : List α) :
    updateAt (n + 1) f (x :: xs) = x :: updateAt n f xs := rfl

@[simp] theorem jsFindIndex_nil (p : α → Bool) : jsFindIndex p [] = none := rfl

theorem jsFindIndex_cons (p : α → Bool) (x : α) (xs : List α) :
    jsFindIndex p (x :: xs) =
      if p x then some 0 else (jsFindIndex p xs).map (· + 1) := rfl


theorem deact_isActive (c : Config) : (deact c).isActive = false := rfl

theorem deact_Id (c : Config) : (deact c).Id = c.Id := rfl

theorem filter_map_deact (s : List Config) :
    (s.map deact).filter (·.isActive) = [] := by
  induction s with
  | nil => rfl
  | cons x xs ih => simpa [List.filter_cons, deact_isActive] using ih

theorem activeCount_map_deact (s : List Config) :
    activeCount (s.map deact) = 0 := by
  simp [activeCount, List.countP_eq_length_filter, filter_map_deact]

theorem jsFindIndex_eq_none {p : α → Bool} {l : List α} :
    jsFindIndex p l = none ↔ ∀ a ∈ l, p a = false := by
  induction l with
  | nil => simp
  | cons x xs ih =>
    cases hx : p x with
    | true => simp [jsFindIndex_cons, hx]
    | false => simp [jsFindIndex_cons, hx, ih]

theorem jsFindIndex_lt_length {p : α → Bool} {l : List α} {i : Nat}
    (h : jsFindIndex p l = some i) : i < l.length := by
  induction l generalizing i with
  | nil => simp at h
  | cons x xs ih =>
    rw [jsFindIndex_cons] at h
    by_cases hx : p x = true
    · rw [if_pos hx] at h
      injection h with h'
      subst h'
      simp
    · rw [if_neg hx] at h
      cases hrec : jsFindIndex p xs with
      | none => rw [hrec] at h; exact Option.noConfusion h
      | some j =>
        rw [hrec] at h
        injection h with h'
        subst h'
        have := ih hrec
        simp only [List.length_cons]
        omega

theorem jsFindIndex_pred {p : α → Bool} {l : List α} {i : Nat} (d : α)
    (h : jsFindIndex p l = some i) : p (l.getD i d) = true := by
  induction l generalizing i with
  | nil => simp at h
  | cons x xs ih =>
    rw [jsFindIndex_cons] at h
    by_cases hx : p x = true
    · rw [if_pos hx] at h
      injection h with h'
      subst h'
      simpa using hx
    · rw [if_neg hx] at h
      cases hrec : jsFindIndex p xs with
      | none => rw [hrec] at h; exact Option.noConfusion h
      | some j =>
        rw [hrec] at h
        injection h with h'
        subst h'
        simpa using ih hrec

theorem updateAt_length (n : Nat) (f : α → α) (l : List α) :
    (updateAt n f l).length = l.length := by
  induction l generalizing n with
  | nil => simp
  | cons x xs ih =>
    cases n with
    | zero => simp
    | succ m => simp [ih]

theorem countP_updateAt_le_succ (p : α → Bool) (n : Nat) (f : α → α)
    (l : List α) : (updateAt n f l).countP p ≤ l.countP p + 1 := by
  induction l generalizing n with
  | nil => simp
  | cons x xs ih =>
    cases n with
    | zero =>
      simp only [updateAt_zero_cons, List.countP_cons]
      rcases Bool.eq_false_or_eq_true (p (f x)) with h1 | h1 <;>
        rcases Bool.eq_false_or_eq_true (p x) with h2 | h2 <;>
          simp only [h1, h2, Bool.false_eq_true, if_true, if_false] <;> omega
    | succ m =>
      simp only [updateAt_succ_cons, List.countP_cons]
      have := ih m
      omega

theorem countP_updateAt_false (p : α → Bool) (n : Nat) (f : α → α)
    (l : List α) (hf : ∀ x, p (f x) = false) :
    (updateAt n f l).countP p ≤ l.countP p := by
  induction l generalizing n with
  | nil => simp
  | cons x xs ih =>
    cases n with
    | zero =>
      simp only [updateAt_zero_cons, List.countP_cons, hf]
      by_cases h2 : p x = true <;> simp [h2]
    | succ m =>
      simp only [updateAt_succ_cons, List.countP_cons]
      have := ih m
      omega

theorem countP_updateAt_pres (p : α → Bool) (n : Nat) (f : α → α)
    (l : List α) (hf : ∀ x, p (f x) = p x) :
    (updateAt n f l).countP p = l.countP p := by
  induction l generalizing n with
  | nil => simp
  | cons x xs ih =>
    cases n with
    | zero => simp [List.countP_cons, hf]
    | succ m => simp [List.countP_cons, ih]

theorem getD_map_lt (f : α → β) (l : List α) (n : Nat) (h : n < l.length)
    (d : β) (d' : α) : (l.map f).getD n d = f (l.getD n d') := by
  induction l generalizing n with
  | nil => simp at h
  | cons x xs ih =>
    cases n with
    | zero => simp
    | succ m =>
      simp only [List.length_cons] at h
      simpa using ih m (by omega)

theorem filter_updateAt_activate (l : List Config) (n : Nat)
    (hn : n < l.length) (hall : ∀ c ∈ l, c.isActive = false) :
    (updateAt n (fun c => { c with isActive := true }) l).filter (·.isActive) =
      [{ l.getD n defCfg with isActive := true }] := by
  induction l generalizing n with
  | nil => simp at hn
  | cons x xs ih =>
    cases n with
    | zero =>
      have hxs : xs.filter (·.isActive) = [] := by
        apply List.filter_eq_nil_iff.mpr
        intro c hc
        simp [hall c (List.mem_cons_of_mem _ hc)]
      simp [updateAt, List.filter_cons, hxs]
    | succ m =>
      have hx : x.isActive = false := hall x (List.mem_cons_self _ _)
      simp only [List.length_cons] at hn
      simpa [updateAt, List.filter_cons, hx] using
        ih m (by omega) (fun c hc => hall c (List.mem_cons_of_mem _ hc))

theorem le_maxId {c : Config} {s : List Config} (h : c ∈ s) :
    c.Id ≤ maxId s := by
  induction s with
  | nil => simp at h
  | cons x xs ih =>
    simp only [maxId, List.map_cons, List.foldr_cons] at *
    rcases List.mem_cons.mp h with rfl | h
    · exact le_max_left _ _
    · exact le_trans (ih h) (le_max_right _ _)

theorem maxId_map_deact (s : List Config) : maxId (s.map deact) = maxId s := by
  simp only [maxId, List.map_map]
  congr 1

theorem map_Id_updateAt (n : Nat) (f : Config → Config) (l : List Config)
    (hf : ∀ x, (f x).Id = x.Id) :
    (updateAt n f l).map (·.Id) = l.map (·.Id) := by
  induction l generalizing n with
  | nil => simp
  | cons x xs ih =>
    cases n with
    | zero => simp [hf]
    | succ m => simp [ih]

theorem createCfg_isActive (d : ConfigData) (s : List Config) :
    (createCfg d s).isActive = true := rfl

theorem mergeCfg_Id (c : Config) (d : ConfigData) : (mergeCfg c d).Id = c.Id := rfl

theorem map_Id_map_deact (s : List Config) :
    (s.map deact).map (·.Id) = s.map (·.Id) := by
  simp only [List.map_map]
  congr 1

theorem runOps_nil (s : List Config) : runOps [] s = s := rfl

theorem runOps_cons (op : BucketOp) (ops : List BucketOp) (s : List Config) :
    runOps (op :: ops) s = runOps ops (applyOp op s) := rfl

theorem activeCount_bucketCreate (d : ConfigData) (s : List Config) :
    activeCount ((bucketCreate d s).2) = 1 := by
  have h0 := activeCount_map_deact s
  simp only [activeCount] at *
  simp [bucketCreate, List.countP_append, List.countP_cons, h0,
    createCfg_isActive]

theorem filter_bucketCreate (d : ConfigData) (s : List Config) :
    ((bucketCreate d s).2).filter (·.isActive) = [createCfg d (s.map deact)] := by
  simp [bucketCreate, List.filter_append, filter_map_deact, List.filter_cons,
    createCfg_isActive]

theorem mergeCfg_isActive_none (d : ConfigData) (hd : d.isActive = none)
    (c : Config) : (mergeCfg c d).isActive = c.isActive := by
  simp [mergeCfg, hd]

theorem mergeCfg_isActive_some (d : ConfigData) {b : Bool}
    (hd : d.isActive = some b) (c : Config) : (mergeCfg c d).isActive = b := by
  simp [mergeCfg, hd]

theorem activeCount_applyOp (op : BucketOp) (s : List Config)
    (h : activeCount s ≤ 1) : activeCount (applyOp op s) ≤ 1 := by
  cases op with
  | opCreate d =>
    simp only [applyOp]
    rw [activeCount_bucketCreate]
  | opUpdate i d =>
    simp only [applyOp, bucketUpdate]
    cases hix : jsFindIndex (fun c => c.Id == i) s with
    | none => simpa using h
    | some ix =>
      simp only [activeCount]
      cases hda : d.isActive with
      | none =>
        simp only [jsTruthy, hda, Option.getD_none, Bool.false_eq_true, if_false]
        rw [countP_updateAt_pres]
        · exact h
        · intro x
          simpa using mergeCfg_isActive_none d hda x
      | some b =>
        cases b with
        | false =>
          simp only [jsTruthy, hda, Option.getD_some, Bool.false_eq_true, if_false]
          refine le_trans (countP_updateAt_false _ _ _ _ ?_) h
          intro x
          simpa using mergeCfg_isActive_some d hda x
        | true =>
          simp only [jsTruthy, hda, Option.getD_some, if_true]
          have h1 := countP_updateAt_le_succ (·.isActive) ix
            (fun c => mergeCfg c d) (s.map deact)
          have h0 := activeCount_map_deact s
          simp only [activeCount] at h0
          omega
  | opDelete i =>
    simp only [applyOp, bucketDelete]
    cases hix : jsFindIndex (fun c => c.Id == i) s with
    | none => simpa using h
    | some ix =>
      simp only [activeCount]
      exact le_trans (List.Sublist.countP_le _ (List.eraseIdx_sublist s ix)) h
  | opSetActive i =>
    simp only [applyOp, bucketSetActive]
    cases hix : jsFindIndex (fun c => c.Id == i) s with
    | none => simpa using h
    | some ix =>
      simp only [activeCount]
      have h1 := countP_updateAt_le_succ (·.isActive) ix
        (fun c => { c with isActive := true }) (s.map deact)
      have h0 := activeCount_map_deact s
      simp only [activeCount] at h0
      omega

theorem activeCount_runOps (ops : List BucketOp) :
    ∀ init, activeCount init ≤ 1 → activeCount (runOps ops init) ≤ 1 := by
  induction ops with
  | nil => intro init h; simpa [runOps_nil] using h
  | cons op ops ih =>
    intro init h
    rw [runOps_cons]
    exact ih _ (activeCount_applyOp op init h)

theorem bucketSetActive_ok {i : Int} {s : List Config} {c : Config}
    (h : (bucketSetActive i s).1 = Except.ok c) :
    (bucketSetActive i s).2.filter (·.isActive) = [c] ∧
      c.isActive = true ∧ c.Id = i := by
  rw [bucketSetActive] at *
  cases hix : jsFindIndex (fun c => c.Id == i) s with
  | none => rw [hix] at h; exact absurd h (by simp)
  | some ix =>
    rw [hix] at h
    simp only at h
    have hc : c = { (s.map deact).getD ix defCfg with isActive := true } := by
      injection h with h'
      exact h'.symm
    have hlen : ix < (s.map deact).length := by
      simpa using jsFindIndex_lt_length hix
    have hall : ∀ x ∈ s.map deact, x.isActive = false := by
      intro x hx
      obtain ⟨y, _, rfl⟩ := List.mem_map.mp hx
      rfl
    have hfil := filter_updateAt_activate (s.map deact) ix hlen hall
    constructor
    · dsimp only
      rw [hc]
      exact hfil
    constructor
    · rw [hc]
    · have hId : ((s.getD ix defCfg).Id == i) = true := jsFindIndex_pred defCfg hix
      have : (s.map deact).getD ix defCfg = deact (s.getD ix defCfg) :=
        getD_map_lt deact s ix (by simpa using hlen) defCfg defCfg
      rw [hc, this]
      simpa [deact] using hId

/-- C1: in every state reachable from an initial list with at most one
active configuration (the spec's invariant for the bundled mock data, which
is not under src/), every `create`/`update`/`delete`/`setActive` sequence
preserves "at most one active"; moreover `create` leaves exactly the new
configuration active and a successful `setActive id` leaves exactly the
selected configuration (the one with that `Id`) active. -/
theorem bucket_at_most_one_active :
    (∀ init ops, activeCount init ≤ 1 → activeCount (runOps ops init) ≤ 1) ∧
    (∀ d s c, (bucketCreate d s).1 = Except.ok c →
      (bucketCreate d s).2.filter (·.isActive) = [c] ∧ c.isActive = true) ∧
    (∀ i s c, (bucketSetActive i s).1 = Except.ok c →
      (bucketSetActive i s).2.filter (·.isActive) = [c] ∧
        c.isActive = true ∧ c.Id = i) := by
  refine ⟨fun init ops h => activeCount_runOps ops init h, ?_, ?_⟩
  · intro d s c h
    have hc : c = createCfg d (s.map deact) := by
      rw [bucketCreate] at h
      injection h with h'
      exact h'.symm
    subst hc
    exact ⟨filter_bucketCreate d s, rfl⟩
  · intro i s c h
    exact bucketSetActive_ok h

/-- Witness for C1 at the sample state: the invariant holds after the
sample operation sequence, and `setActive 2` activates exactly the
configuration with `Id = 2`. -/
theorem bucket_at_most_one_active_witness :
    (activeCount sampleInit ≤ 1 ∧
      activeCount (runOps sampleOps sampleInit) ≤ 1) ∧
    ((bucketSetActive 2 sampleInit).1 = Except.ok sampleActivated ∧
      (bucketSetActive 2 sampleInit).2.filter (·.isActive) = [sampleActivated] ∧
      sampleActivated.isActive = true ∧ sampleActivated.Id = 2) := by
  have h : (bucketSetActive 2 sampleInit).1 = Except.ok sampleActivated := rfl
  exact ⟨⟨by decide, bucket_at_most_one_active.1 sampleInit sampleOps (by decide)⟩,
    ⟨h, bucket_at_most_one_active.2.2 2 sampleInit sampleActivated h⟩⟩

/-- C4: each of `getById`, `update`, `delete`, `setActive` throws
`'Configuration not found'` exactly when no stored configuration has the
requested `Id`, and a throwing call leaves the stored list unchanged (the
existence check precedes every mutation). -/
theorem bucket_not_found_iff :
    ∀ i d s,
      (((bucketGetById i s).1 = Except.error cfgNotFound ↔ ∀ c ∈ s, c.Id ≠ i) ∧
        ((bucketGetById i s).1 = Except.error cfgNotFound →
          (bucketGetById i s).2 = s)) ∧
      (((bucketUpdate i d s).1 = Except.error cfgNotFound ↔ ∀ c ∈ s, c.Id ≠ i) ∧
        ((bucketUpdate i d s).1 = Except.error cfgNotFound →
          (bucketUpdate i d s).2 = s)) ∧
      (((bucketDelete i s).1 = Except.error cfgNotFound ↔ ∀ c ∈ s, c.Id ≠ i) ∧
        ((bucketDelete i s).1 = Except.error cfgNotFound →
          (bucketDelete i s).2 = s)) ∧
      (((bucketSetActive i s).1 = Except.error cfgNotFound ↔ ∀ c ∈ s, c.Id ≠ i) ∧
        ((bucketSetActive i s).1 = Except.error cfgNotFound →
          (bucketSetActive i s).2 = s)) := by
  intro i d s
  have hnone : jsFindIndex (fun c => c.Id == i) s = none ↔ ∀ c ∈ s, c.Id ≠ i := by
    rw [jsFindIndex_eq_none]
    constructor
    · intro h c hc
      simpa using h c hc
    · intro h c hc
      simpa using h c hc
  refine ⟨⟨?_, ?_⟩, ⟨?_, ?_⟩, ⟨?_, ?_⟩, ⟨?_, ?_⟩⟩
  · unfold bucketGetById
    cases hf : s.find? (fun c => c.Id == i) with
    | none =>
      simp only [true_iff]
      intro c hc
      have := List.find?_eq_none.mp hf c hc
      simpa using this
    | some c0 =>
      simp only [reduceCtorEq, false_iff, not_forall]
      refine ⟨c0, List.mem_of_find?_eq_some hf, ?_⟩
      have := List.find?_some hf
      simpa using this
  · unfold bucketGetById
    cases hf : s.find? (fun c => c.Id == i) <;> simp
  · unfold bucketUpdate
    cases hix : jsFindIndex (fun c => c.Id == i) s with
    | none => simpa using hnone.mp hix
    | some ix =>
      simp only [reduceCtorEq, false_iff, not_forall]
      have : ¬(∀ c ∈ s, c.Id ≠ i) := by
        intro hall
        rw [← hnone] at hall
        rw [hix] at hall
        exact Option.noConfusion hall
      simpa [not_forall] using this
  · unfold bucketUpdate
    cases hix : jsFindIndex (fun c => c.Id == i) s <;> simp
  · unfold bucketDelete
    cases hix : jsFindIndex (fun c => c.Id == i) s with
    | none => simpa using hnone.mp hix
    | some ix =>
      simp only [reduceCtorEq, false_iff, not_forall]
      have : ¬(∀ c ∈ s, c.Id ≠ i) := by
        intro hall
        rw [← hnone] at hall
        rw [hix] at hall
        exact Option.noConfusion hall
      simpa [not_forall] using this
  · unfold bucketDelete
    cases hix : jsFindIndex (fun c => c.Id == i) s <;> simp
  · unfold bucketSetActive
    cases hix : jsFindIndex (fun c => c.Id == i) s with
    | none => simpa using hnone.mp hix
    | some ix =>
      simp only [reduceCtorEq, false_iff, not_forall]
      have : ¬(∀ c ∈ s, c.Id ≠ i) := by
        intro hall
        rw [← hnone] at hall
        rw [hix] at hall
        exact Option.noConfusion hall
      simpa [not_forall] using this
  · unfold bucketSetActive
    cases hix : jsFindIndex (fun c => c.Id == i) s <;> simp

/-- Witness for C4: `Id = 99` is stored nowhere in the sample state, so
`update` throws and the stored list is untouched. -/
theorem bucket_not_found_iff_witness :
    (bucketUpdate 99 sampleData sampleInit).1 = Except.error cfgNotFound ∧
      (bucketUpdate 99 sampleData sampleInit).2 = sampleInit := by
  have h := (bucket_not_found_iff 99 sampleData sampleInit).2.1
  have herr := h.1.mpr (by decide)
  exact ⟨herr, h.2 herr⟩

/-- C9: `create` assigns `Id = max(existing Ids, 0) + 1`, strictly above
every stored `Id`; consequently pairwise-distinct `Id`s are preserved by
every operation. -/
theorem bucket_fresh_id :
    (∀ d s c, (bucketCreate d s).1 = Except.ok c →
      c.Id = maxId s + 1 ∧ ∀ x ∈ s, x.Id < c.Id) ∧
    (∀ op s, nodupIds s → nodupIds (applyOp op s)) := by
  constructor
  · intro d s c h
    have hc : c = createCfg d (s.map deact) := by
      rw [bucketCreate] at h
      injection h with h'
      exact h'.symm
    subst hc
    have hId : (createCfg d (s.map deact)).Id = maxId s + 1 := by
      show maxId (s.map deact) + 1 = maxId s + 1
      rw [maxId, map_Id_map_deact, ← maxId]
    refine ⟨hId, fun x hx => ?_⟩
    rw [hId]
    have := le_maxId hx
    omega
  · intro op s hs
    cases op with
    | opCreate d =>
      simp only [applyOp, bucketCreate, nodupIds] at *
      rw [List.map_append, map_Id_map_deact]
      rw [List.nodup_append]
      refine ⟨hs, List.nodup_singleton _, ?_⟩
      intro a ha hb
      simp only [List.map_cons, List.map_nil, List.mem_singleton] at hb
      obtain ⟨x, hx, rfl⟩ := List.mem_map.mp ha
      have h1 := le_maxId hx
      have h2 : (createCfg d (s.map deact)).Id = maxId s + 1 := by
        show maxId (s.map deact) + 1 = maxId s + 1
        rw [maxId, map_Id_map_deact, ← maxId]
      rw [hb, h2] at h1
      omega
    | opUpdate i d =>
      simp only [applyOp, bucketUpdate]
      cases hix : jsFindIndex (fun c => c.Id == i) s with
      | none => simpa using hs
      | some ix =>
        simp only [nodupIds] at *
        rw [map_Id_updateAt _ _ _ (fun x => mergeCfg_Id x d)]
        cases h1 : jsTruthy d.isActive with
        | true => rw [if_pos rfl, map_Id_map_deact]; exact hs
        | false => rw [if_neg (by simp [h1])]; exact hs
    | opDelete i =>
      simp only [applyOp, bucketDelete]
      cases hix : jsFindIndex (fun c => c.Id == i) s with
      | none => simpa using hs
      | some ix =>
        simp only [nodupIds] at *
        exact hs.sublist (List.Sublist.map _ (List.eraseIdx_sublist s ix))
    | opSetActive i =>
      simp only [applyOp, bucketSetActive]
      cases hix : jsFindIndex (fun c => c.Id == i) s with
      | none => simpa using hs
      | some ix =>
        simp only [nodupIds] at *
        rw [map_Id_updateAt ix (fun c => { c with isActive := true })
          (s.map deact) (fun x => rfl), map_Id_map_deact]
        exact hs

/-- Witness for C9 at the sample state: the created configuration gets the
fresh `Id = 3`, above the stored `Id`s 1 and 2, and distinctness of `Id`s
survives a `create`. -/
theorem bucket_fresh_id_witness :
    ((bucketCreate sampleData sampleInit).1 = Except.ok sampleCreated ∧
      sampleCreated.Id = maxId sampleInit + 1 ∧
      (∀ x ∈ sampleInit, x.Id < sampleCreated.Id)) ∧
    nodupIds (applyOp (BucketOp.opCreate sampleData) sampleInit) := by
  have h : (bucketCreate sampleData sampleInit).1 = Except.ok sampleCreated := rfl
  have h2 := bucket_fresh_id.1 sampleData sampleInit sampleCreated h
  refine ⟨⟨h, h2⟩, bucket_fresh_id.2 (BucketOp.opCreate sampleData) sampleInit ?_⟩
  show (sampleInit.map (·.Id)).Nodup
  decide

/-! ### Split/join and breadcrumb lemmas -/

theorem splitChar_ne_nil (c : Char) (s : List Char) : splitChar c s ≠ [] := by
  cases s with
  | nil => simp [splitChar]
  | cons x xs =>
    unfold splitChar
    split
    · simp
    · split <;> simp

theorem joinChar_cons_cons (c : Char) (s h : List Char) (t : List (List Char)) :
    joinChar c (s :: h :: t) = s ++ c :: joinChar c (h :: t) := rfl

theorem join_split (c : Char) (s : List Char) :
    joinChar c (splitChar c s) = s := by
  induction s with
  | nil => rfl
  | cons x xs ih =>
    unfold splitChar
    by_cases hx : x = c
    · rw [if_pos hx]
      obtain ⟨h0, t0, hsp⟩ : ∃ h t, splitChar c xs = h :: t := by
        cases hsp : splitChar c xs with
        | nil => exact absurd hsp (splitChar_ne_nil c xs)
        | cons h t => exact ⟨h, t, rfl⟩
      rw [hsp, joinChar_cons_cons]
      simp only [List.nil_append]
      rw [← hsp, ih, hx]
    · rw [if_neg hx]
      cases hsp : splitChar c xs with
      | nil => exact absurd hsp (splitChar_ne_nil c xs)
      | cons h0 t0 =>
        cases t0 with
        | nil =>
          have hxs : h0 = xs := by
            have h1 := ih
            rw [hsp] at h1
            simpa [joinChar] using h1
          simp [joinChar, hxs]
        | cons y ys =>
          have hxs : h0 ++ c :: joinChar c (y :: ys) = xs := by
            have h1 := ih
            rw [hsp, joinChar_cons_cons] at h1
            exact h1
          rw [joinChar_cons_cons]
          simp only [List.cons_append, List.cons.injEq, true_and]
          exact hxs

theorem mapIdxFrom_length (f : Nat → α → β) (k : Nat) (l : List α) :
    (mapIdxFrom f k l).length = l.length := by
  induction l generalizing k with
  | nil => rfl
  | cons x xs ih => simp [mapIdxFrom, ih]

theorem mapIdxFrom_getD (f : Nat → α → β) (k : Nat) (l : List α) (i : Nat)
    (hi : i < l.length) (d : β) (d' : α) :
    (mapIdxFrom f k l).getD i d = f (k + i) (l.getD i d') := by
  induction l generalizing k i with
  | nil => simp at hi
  | cons x xs ih =>
    cases i with
    | zero => simp [mapIdxFrom]
    | succ j =>
      simp only [List.length_cons] at hi
      simp only [mapIdxFrom, List.getD_cons_succ]
      rw [ih (k + 1) j (by omega)]
      congr 1
      omega

/-- C10: `FileBrowser.getBreadcrumbs` and `S3Service.getPathBreadcrumbs`
compute the same function; both return `[]` on the empty path, and otherwise
one crumb per '/'-separated segment whose name is that segment and whose
path joins the first `i + 1` segments, the last crumb's path being the whole
input path. -/
theorem breadcrumbs_equiv :
    ∀ path : List Char,
      getBreadcrumbs path = getPathBreadcrumbs path ∧
      (path = [] → getBreadcrumbs path = []) ∧
      (path ≠ [] →
        (getBreadcrumbs path).length = (splitChar '/' path).length ∧
        (∀ i, i < (splitChar '/' path).length →
          ((getBreadcrumbs path).getD i ⟨[], []⟩).name =
            (splitChar '/' path).getD i [] ∧
          ((getBreadcrumbs path).getD i ⟨[], []⟩).path =
            joinChar '/' ((splitChar '/' path).take (i + 1))) ∧
        ((getBreadcrumbs path).getD ((splitChar '/' path).length - 1)
          ⟨[], []⟩).path = path) := by
  intro path
  refine ⟨rfl, fun h => by simp [getBreadcrumbs, h], fun h => ?_⟩
  have hne := splitChar_ne_nil '/' path
  have hlen : 0 < (splitChar '/' path).length :=
    List.length_pos.mpr hne
  have hbc : getBreadcrumbs path =
      mapIdxFrom (fun i part =>
        Crumb.mk part (joinChar '/' ((splitChar '/' path).take (i + 1)))) 0
        (splitChar '/' path) := by
    simp [getBreadcrumbs, h]
  refine ⟨by rw [hbc, mapIdxFrom_length], ?_, ?_⟩
  · intro i hi
    rw [hbc, mapIdxFrom_getD _ 0 _ i hi _ []]
    simp
  · have hip : (splitChar '/' path).length - 1 < (splitChar '/' path).length := by
      omega
    rw [hbc, mapIdxFrom_getD _ 0 _ _ hip _ []]
    simp only [Nat.zero_add]
    have hsucc : (splitChar '/' path).length - 1 + 1 =
        (splitChar '/' path).length := by omega
    rw [hsucc, List.take_length, join_split]

/-- Witness for C10 on the path `"a/b"`: the two functions agree, there are
two crumbs, and the last crumb's path is the whole input. -/
theorem breadcrumbs_equiv_witness :
    getBreadcrumbs ['a', '/', 'b'] = getPathBreadcrumbs ['a', '/', 'b'] ∧
    (getBreadcrumbs ['a', '/', 'b']).length =
      (splitChar '/' ['a', '/', 'b']).length ∧
    ((getBreadcrumbs ['a', '/', 'b']).getD
      ((splitChar '/' ['a', '/', 'b']).length - 1) ⟨[], []⟩).path =
        ['a', '/', 'b'] := by
  have h := breadcrumbs_equiv ['a', '/', 'b']
  have h2 := h.2.2 (by decide)
  exact ⟨h.1, h2.1, h2.2.2⟩

/-- C5 (spec-modelled): for every key and every expiry chosen in the share
dialog, the share operation returns a URL for exactly that object, readable
exactly until `now + hours * 3600` seconds — a time-limited URL granting
temporary read access to the object. -/
theorem share_url_time_limited :
    ∀ (now : Nat) (key : List Char) (hours t : Nat),
      (shareOperation now key hours).objectKey = key ∧
      (shareOperation now key hours).expiresAt = now + hours * 3600 ∧
      (shareUrlGrantsRead (shareOperation now key hours) key t = true ↔
        t ≤ now + hours * 3600) ∧
      (∀ k, shareUrlGrantsRead (shareOperation now key hours) k t = true →
        k = key) := by
  intro now key hours t
  refine ⟨rfl, rfl, ?_, ?_⟩
  · simp [shareUrlGrantsRead, shareOperation, generateShareUrl]
  · intro k hk
    simp only [shareUrlGrantsRead, shareOperation, generateShareUrl,
      Bool.and_eq_true, decide_eq_true_eq] at hk
    exact hk.1.symm

/-- Witness for C5: a URL issued at time 1000 for 24 hours still grants
read access to its object at the last second of its window. -/
theorem share_url_time_limited_witness :
    shareUrlGrantsRead (shareOperation 1000 ['f'] 24) ['f'] 87400 = true :=
  (share_url_time_limited 1000 ['f'] 24 87400).2.2.1.mpr (by decide)

/-! ### Lexicographic-order lemmas for the sort comparators -/

theorem ltChars_irrefl (a : List Char) : ltChars a a = false := by
  induction a with
  | nil => rfl
  | cons x xs ih => simp [ltChars, lt_irrefl, ih]

theorem ltChars_trans {a b c : List Char} (h1 : ltChars a b = true)
    (h2 : ltChars b c = true) : ltChars a c = true := by
  induction a generalizing b c with
  | nil =>
    cases b with
    | nil => simp [ltChars] at h1
    | cons y bs =>
      cases c with
      | nil => simp [ltChars] at h2
      | cons z cs => rfl
  | cons x as ih =>
    cases b with
    | nil => simp [ltChars] at h1
    | cons y bs =>
      cases c with
      | nil => simp [ltChars] at h2
      | cons z cs =>
        simp only [ltChars] at h1 h2 ⊢
        by_cases hxy : x < y
        · by_cases hyz : y < z
          · simp [lt_trans hxy hyz]
          · by_cases hzy : z < y
            · simp [hyz, hzy] at h2
            · have hyzeq : y = z := le_antisymm (not_lt.mp hzy) (not_lt.mp hyz)
              simp [hyzeq ▸ hxy]
        · by_cases hyx : y < x
          · simp [hxy, hyx] at h1
          · have hxyeq : x = y := le_antisymm (not_lt.mp hyx) (not_lt.mp hxy)
            subst hxyeq
            simp only [hxy, if_neg hxy] at h1 ⊢
            by_cases hyz : x < z
            · simp [hyz]
            · by_cases hzy : z < x
              · simp [hyz, hzy] at h2
              · have : x = z := le_antisymm (not_lt.mp hzy) (not_lt.mp hyz)
                subst this
                simp only [lt_irrefl, if_neg (lt_irrefl x)] at h1 h2 ⊢
                simp at h1 h2
                exact ih h1 h2

theorem ltChars_trichot (a b : List Char) :
    ltChars a b = true ∨ a = b ∨ ltChars b a = true := by
  induction a generalizing b with
  | nil =>
    cases b with
    | nil => exact Or.inr (Or.inl rfl)
    | cons y bs => exact Or.inl rfl
  | cons x as ih =>
    cases b with
    | nil => exact Or.inr (Or.inr rfl)
    | cons y bs =>
      rcases lt_trichotomy x y with hxy | hxy | hxy
      · exact Or.inl (by simp [ltChars, hxy])
      · subst hxy
        rcases ih bs with h | h | h
        · exact Or.inl (by simp [ltChars, lt_irrefl, h])
        · exact Or.inr (Or.inl (by rw [h]))
        · exact Or.inr (Or.inr (by simp [ltChars, lt_irrefl, h]))
      · exact Or.inr (Or.inr (by simp [ltChars, hxy]))

theorem ltChars_asymm {a b : List Char} (h : ltChars a b = true) :
    ltChars b a = false := by
  cases hba : ltChars b a with
  | false => rfl
  | true => exact absurd (ltChars_trans h hba) (by simp [ltChars_irrefl])

theorem ltChars_negtrans {a b c : List Char} (h1 : ltChars b a = false)
    (h2 : ltChars c b = false) : ltChars c a = false := by
  cases hca : ltChars c a with
  | false => rfl
  | true =>
    exfalso
    rcases ltChars_trichot a b with h | h | h
    · rw [ltChars_trans hca h] at h2; exact Bool.noConfusion h2
    · subst h; rw [hca] at h2; exact Bool.noConfusion h2
    · rw [h] at h1; exact Bool.noConfusion h1

theorem compareChars_nonpos {a b : List Char} :
    compareChars a b ≤ 0 ↔ ltChars b a = false := by
  unfold compareChars
  by_cases hab : ltChars a b = true
  · simp [hab, ltChars_asymm hab]
  · by_cases hba : ltChars b a = true
    · simp [hab, hba]
    · simp only [Bool.not_eq_true] at hab hba
      simp [hab, hba]

/-! ### listFiles ordering (C3) -/

theorem fileCmp_TF {a b : FileEntry} (ha : a.isFolder = true)
    (hb : b.isFolder = false) : fileCmp a b = -1 := by
  simp [fileCmp, ha, hb]

theorem fileCmp_FT {a b : FileEntry} (ha : a.isFolder = false)
    (hb : b.isFolder = true) : fileCmp a b = 1 := by
  simp [fileCmp, ha, hb]

theorem fileCmp_same {a b : FileEntry} (hab : a.isFolder = b.isFolder) :
    fileCmp a b = compareChars a.name b.name := by
  cases hb : b.isFolder <;> rw [hb] at hab <;> simp [fileCmp, hab, hb]

theorem entryLe_trans (a b c : FileEntry) (h1 : entryLe a b = true)
    (h2 : entryLe b c = true) : entryLe a c = true := by
  simp only [entryLe, decide_eq_true_eq] at *
  cases ha : a.isFolder <;> cases hc : c.isFolder
  · -- a file, c file
    cases hb : b.isFolder
    · rw [fileCmp_same (ha.trans hb.symm)] at h1
      rw [fileCmp_same (hb.trans hc.symm)] at h2
      rw [fileCmp_same (ha.trans hc.symm)]
      rw [compareChars_nonpos] at *
      exact ltChars_negtrans h1 h2
    · rw [fileCmp_FT ha hb] at h1; omega
  · -- a file, c folder: impossible
    cases hb : b.isFolder
    · rw [fileCmp_FT hb hc] at h2; omega
    · rw [fileCmp_FT ha hb] at h1; omega
  · -- a folder, c file
    rw [fileCmp_TF ha hc]; omega
  · -- a folder, c folder
    cases hb : b.isFolder
    · rw [fileCmp_FT hb hc] at h2; omega
    · rw [fileCmp_same (ha.trans hb.symm)] at h1
      rw [fileCmp_same (hb.trans hc.symm)] at h2
      rw [fileCmp_same (ha.trans hc.symm)]
      rw [compareChars_nonpos] at *
      exact ltChars_negtrans h1 h2

theorem entryLe_total (a b : FileEntry) :
    (entryLe a b || entryLe b a) = true := by
  simp only [entryLe, Bool.or_eq_true, decide_eq_true_eq]
  cases ha : a.isFolder <;> cases hb : b.isFolder
  · rw [fileCmp_same (ha.trans hb.symm), fileCmp_same (hb.trans ha.symm)]
    rw [compareChars_nonpos, compareChars_nonpos]
    cases hab : ltChars a.name b.name
    · exact Or.inr rfl
    · exact Or.inl (ltChars_asymm hab)
  · right; rw [fileCmp_TF hb ha]; omega
  · left; rw [fileCmp_TF ha hb]; omega
  · rw [fileCmp_same (ha.trans hb.symm), fileCmp_same (hb.trans ha.symm)]
    rw [compareChars_nonpos, compareChars_nonpos]
    cases hab : ltChars a.name b.name
    · exact Or.inr rfl
    · exact Or.inl (ltChars_asymm hab)

theorem listFiles_eq (path : List Char) (resp : S3Response) (now : List Char) :
    listFiles path resp now =
      ((resp.CommonPrefixes.map (folderEntry now)) ++
        ((resp.Contents.filter
          (fun o => decide (o.Key ≠ listPrefixOf path))).map fileEntryOf)).mergeSort
            entryLe := rfl

/-- C3: in every `listFiles` result, every folder entry precedes every file
entry, entries with the same folder flag appear in `localeCompare` order of
their names (modelled as code-unit collation), and no file entry's key
equals the listing prefix itself. -/
theorem listFiles_order :
    ∀ path resp now,
      ((listFiles path resp now).Pairwise
        (fun a b => ¬(a.isFolder = false ∧ b.isFolder = true))) ∧
      ((listFiles path resp now).Pairwise
        (fun a b => a.isFolder = b.isFolder → compareChars a.name b.name ≤ 0)) ∧
      (∀ e ∈ listFiles path resp now, e.isFolder = false →
        e.key ≠ listPrefixOf path) := by
  intro path resp now
  have hsorted := @List.sorted_mergeSort _ entryLe entryLe_trans entryLe_total
    ((resp.CommonPrefixes.map (folderEntry now)) ++
      ((resp.Contents.filter
        (fun o => decide (o.Key ≠ listPrefixOf path))).map fileEntryOf))
  rw [← listFiles_eq] at hsorted
  refine ⟨?_, ?_, ?_⟩
  · refine hsorted.imp ?_
    intro a b hab
    rintro ⟨ha, hb⟩
    simp only [entryLe, decide_eq_true_eq] at hab
    rw [fileCmp_FT ha hb] at hab
    omega
  · refine hsorted.imp ?_
    intro a b hab heq
    simp only [entryLe, decide_eq_true_eq] at hab
    rwa [fileCmp_same heq] at hab
  · intro e he hef
    have hperm := List.mergeSort_perm
      ((resp.CommonPrefixes.map (folderEntry now)) ++
        ((resp.Contents.filter
          (fun o => decide (o.Key ≠ listPrefixOf path))).map fileEntryOf)) entryLe
    rw [← listFiles_eq] at hperm
    have hmem := hperm.mem_iff.mp he
    rcases List.mem_append.mp hmem with hfold | hfile
    · obtain ⟨p, _, rfl⟩ := List.mem_map.mp hfold
      simp [folderEntry] at hef
    · obtain ⟨o, ho, rfl⟩ := List.mem_map.mp hfile
      have := (List.mem_filter.mp ho).2
      simpa [fileEntryOf] using this

/-- Witness for C3: in the sample listing at the bucket root, the file
entry built from the sample object is in the result and its key is not the
listing prefix. -/
theorem listFiles_order_witness :
    fileEntryOf sampleObj ∈ listFiles [] sampleResp ['t'] ∧
    (fileEntryOf sampleObj).key ≠ listPrefixOf [] := by
  have hperm := List.mergeSort_perm
    ((sampleResp.CommonPrefixes.map (folderEntry ['t'])) ++
      ((sampleResp.Contents.filter
        (fun o => decide (o.Key ≠ listPrefixOf []))).map fileEntryOf)) entryLe
  rw [← listFiles_eq] at hperm
  have hmem : fileEntryOf sampleObj ∈ listFiles [] sampleResp ['t'] :=
    hperm.mem_iff.mpr (by decide)
  exact ⟨hmem, (listFiles_order [] sampleResp ['t']).2.2
    (fileEntryOf sampleObj) hmem rfl⟩

/-! ### filterAndSortFiles (C6) -/

theorem colLt_asymm (col : SortColumn) {a b : BrowserEntry}
    (h : colLt col a b = true) : colLt col b a = false := by
  cases col with
  | name => exact ltChars_asymm h
  | size =>
    simp only [colLt, decide_eq_true_eq, decide_eq_false_iff_not] at h ⊢
    omega
  | modified =>
    simp only [colLt, decide_eq_true_eq, decide_eq_false_iff_not] at h ⊢
    omega

theorem colLt_negtrans (col : SortColumn) {a b c : BrowserEntry}
    (h1 : colLt col b a = false) (h2 : colLt col c b = false) :
    colLt col c a = false := by
  cases col with
  | name => exact ltChars_negtrans h1 h2
  | size =>
    simp only [colLt, decide_eq_false_iff_not] at h1 h2 ⊢; omega
  | modified =>
    simp only [colLt, decide_eq_false_iff_not] at h1 h2 ⊢; omega

theorem browserCmp_TF {col ord} {a b : BrowserEntry} (ha : a.isFolder = true)
    (hb : b.isFolder = false) : browserCmp col ord a b = -1 := by
  simp [browserCmp, ha, hb]

theorem browserCmp_FT {col ord} {a b : BrowserEntry} (ha : a.isFolder = false)
    (hb : b.isFolder = true) : browserCmp col ord a b = 1 := by
  simp [browserCmp, ha, hb]

theorem browserCmp_nonpos_asc {col} {a b : BrowserEntry}
    (hab : a.isFolder = b.isFolder) :
    (browserCmp col SortOrder.asc a b ≤ 0 ↔ colLt col b a = false) := by
  have h1 : (a.isFolder && !b.isFolder) = false := by
    rw [hab]; cases b.isFolder <;> simp
  have h2 : (!a.isFolder && b.isFolder) = false := by
    rw [hab]; cases b.isFolder <;> simp
  rw [browserCmp]
  rw [h1, h2]
  simp only [Bool.false_eq_true, if_false]
  by_cases hlt : colLt col a b = true
  · simp [hlt, colLt_asymm col hlt]
  · by_cases hgt : colLt col b a = true
    · simp only [Bool.not_eq_true] at hlt
      simp [hlt, hgt]
    · simp only [Bool.not_eq_true] at hlt hgt
      simp [hlt, hgt]

theorem browserCmp_nonpos_desc {col} {a b : BrowserEntry}
    (hab : a.isFolder = b.isFolder) :
    (browserCmp col SortOrder.desc a b ≤ 0 ↔ colLt col a b = false) := by
  have h1 : (a.isFolder && !b.isFolder) = false := by
    rw [hab]; cases b.isFolder <;> simp
  have h2 : (!a.isFolder && b.isFolder) = false := by
    rw [hab]; cases b.isFolder <;> simp
  rw [browserCmp]
  rw [h1, h2]
  simp only [Bool.false_eq_true, if_false]
  by_cases hlt : colLt col a b = true
  · simp [hlt]
  · by_cases hgt : colLt col b a = true
    · simp only [Bool.not_eq_true] at hlt
      simp [hlt, hgt]
    · simp only [Bool.not_eq_true] at hlt hgt
      simp [hlt, hgt]

theorem browserLe_trans (col : SortColumn) (ord : SortOrder) :
    ∀ a b c, browserLe col ord a b = true → browserLe col ord b c = true →
      browserLe col ord a c = true := by
  intro a b c h1 h2
  simp only [browserLe, decide_eq_true_eq] at *
  cases ha : a.isFolder <;> cases hc : c.isFolder
  · cases hb : b.isFolder
    · cases ord
      · rw [browserCmp_nonpos_asc (ha.trans hb.symm)] at h1
        rw [browserCmp_nonpos_asc (hb.trans hc.symm)] at h2
        rw [browserCmp_nonpos_asc (ha.trans hc.symm)]
        exact colLt_negtrans col h1 h2
      · rw [browserCmp_nonpos_desc (ha.trans hb.symm)] at h1
        rw [browserCmp_nonpos_desc (hb.trans hc.symm)] at h2
        rw [browserCmp_nonpos_desc (ha.trans hc.symm)]
        exact colLt_negtrans col h2 h1
    · rw [browserCmp_FT ha hb] at h1; omega
  · cases hb : b.isFolder
    · rw [browserCmp_FT hb hc] at h2; omega
    · rw [browserCmp_FT ha hb] at h1; omega
  · rw [browserCmp_TF ha hc]; omega
  · cases hb : b.isFolder
    · rw [browserCmp_FT hb hc] at h2; omega
    · cases ord
      · rw [browserCmp_nonpos_asc (ha.trans hb.symm)] at h1
        rw [browserCmp_nonpos_asc (hb.trans hc.symm)] at h2
        rw [browserCmp_nonpos_asc (ha.trans hc.symm)]
        exact colLt_negtrans col h1 h2
      · rw [browserCmp_nonpos_desc (ha.trans hb.symm)] at h1
        rw [browserCmp_nonpos_desc (hb.trans hc.symm)] at h2
        rw [browserCmp_nonpos_desc (ha.trans hc.symm)]
        exact colLt_negtrans col h2 h1

theorem browserLe_total (col : SortColumn) (ord : SortOrder) :
    ∀ a b, (browserLe col ord a b || browserLe col ord b a) = true := by
  intro a b
  simp only [browserLe, Bool.or_eq_true, decide_eq_true_eq]
  cases ha : a.isFolder <;> cases hb : b.isFolder
  · cases ord
    · rw [browserCmp_nonpos_asc (ha.trans hb.symm),
        browserCmp_nonpos_asc (hb.trans ha.symm)]
      cases hab : colLt col a b
      · exact Or.inr rfl
      · exact Or.inl (colLt_asymm col hab)
    · rw [browserCmp_nonpos_desc (ha.trans hb.symm),
        browserCmp_nonpos_desc (hb.trans ha.symm)]
      cases hab : colLt col a b
      · exact Or.inl rfl
      · exact Or.inr (colLt_asymm col hab)
  · right; rw [browserCmp_TF hb ha]; omega
  · left; rw [browserCmp_TF ha hb]; omega
  · cases ord
    · rw [browserCmp_nonpos_asc (ha.trans hb.symm),
        browserCmp_nonpos_asc (hb.trans ha.symm)]
      cases hab : colLt col a b
      · exact Or.inr rfl
      · exact Or.inl (colLt_asymm col hab)
    · rw [browserCmp_nonpos_desc (ha.trans hb.symm),
        browserCmp_nonpos_desc (hb.trans ha.symm)]
      cases hab : colLt col a b
      · exact Or.inl rfl
      · exact Or.inr (colLt_asymm col hab)

theorem jsIncludes_nil (hay : List Char) : jsIncludes hay [] = true := by
  cases hay <;> simp [jsIncludes, List.isPrefixOf]

theorem searchPred_nil (f : BrowserEntry) : searchPred [] f = true := by
  simp [searchPred, lowerStr, jsIncludes_nil]

theorem filterAndSortFiles_eq (files : List BrowserEntry) (q : List Char)
    (col : SortColumn) (ord : SortOrder) :
    filterAndSortFiles files q col ord =
      (if q = [] then files else files.filter (searchPred q)).mergeSort
        (browserLe col ord) := rfl

/-- C6: `filterAndSortFiles` returns exactly the entries whose lowercased
name contains the lowercased query (as a permutation of that filter), and in
the produced order every folder entry precedes every non-folder entry for
every sort column and order, entries with the same folder flag being ordered
by the chosen column in the chosen direction. -/
theorem filterAndSortFiles_spec :
    ∀ (files : List BrowserEntry) (q : List Char) (col : SortColumn)
      (ord : SortOrder),
      (filterAndSortFiles files q col ord).Perm
        (files.filter (searchPred q)) ∧
      ((filterAndSortFiles files q col ord).Pairwise
        (fun a b => ¬(a.isFolder = false ∧ b.isFolder = true))) ∧
      ((filterAndSortFiles files q col ord).Pairwise
        (fun a b => a.isFolder = b.isFolder →
          match ord with
          | SortOrder.asc => colLt col b a = false
          | SortOrder.desc => colLt col a b = false)) := by
  intro files q col ord
  have hperm := List.mergeSort_perm
    (if q = [] then files else files.filter (searchPred q)) (browserLe col ord)
  rw [← filterAndSortFiles_eq] at hperm
  have hsorted := @List.sorted_mergeSort _ (browserLe col ord)
    (browserLe_trans col ord) (browserLe_total col ord)
    (if q = [] then files else files.filter (searchPred q))
  rw [← filterAndSortFiles_eq] at hsorted
  refine ⟨?_, ?_, ?_⟩
  · by_cases hq : q = []
    · rw [hq] at hperm ⊢
      simp only [if_true, reduceIte] at hperm
      have : files.filter (searchPred []) = files :=
        List.filter_eq_self.mpr fun a _ => searchPred_nil a
      rw [this]
      exact hperm
    · rw [if_neg hq] at hperm
      exact hperm
  · refine hsorted.imp ?_
    intro a b hab
    rintro ⟨ha, hb⟩
    simp only [browserLe, decide_eq_true_eq] at hab
    rw [browserCmp_FT ha hb] at hab
    omega
  · refine hsorted.imp ?_
    intro a b hab heq
    simp only [browserLe, decide_eq_true_eq] at hab
    cases ord
    · rw [browserCmp_nonpos_asc heq] at hab
      exact hab
    · rw [browserCmp_nonpos_desc heq] at hab
      exact hab

/-- Witness for C6 at the sample entries with query "a", sorted by name
ascending. -/
theorem filterAndSortFiles_spec_witness :
    (filterAndSortFiles sampleEntries ['a'] SortColumn.name SortOrder.asc).Perm
      (sampleEntries.filter (searchPred ['a'])) ∧
    ((filterAndSortFiles sampleEntries ['a'] SortColumn.name
      SortOrder.asc).Pairwise
        (fun a b => ¬(a.isFolder = false ∧ b.isFolder = true))) ∧
    ((filterAndSortFiles sampleEntries ['a'] SortColumn.name
      SortOrder.asc).Pairwise
        (fun a b => a.isFolder = b.isFolder →
          colLt SortColumn.name b a = false)) :=
  filterAndSortFiles_spec sampleEntries ['a'] SortColumn.name SortOrder.asc

/-! ### Folder-name extraction (C2) -/

theorem lastIdxOf_eq_none {c : Char} {s : List Char} :
    lastIdxOf c s = none ↔ c ∉ s := by
  induction s with
  | nil => simp [lastIdxOf]
  | cons x xs ih =>
    unfold lastIdxOf
    cases hrec : lastIdxOf c xs with
    | some i =>
      have hmem : c ∈ xs := by
        by_contra hc
        rw [ih.mpr hc] at hrec
        exact Option.noConfusion hrec
      simp [List.mem_cons, hmem]
    | none =>
      have hnm : c ∉ xs := ih.mp hrec
      by_cases hx : x = c
      · simp [hx, List.mem_cons]
      · simp only [if_neg hx, List.mem_cons, true_iff]
        push_neg
        exact ⟨fun h => hx h.symm, hnm⟩

theorem lastIdxOf_lt_length {c : Char} {s : List Char} {i : Nat}
    (h : lastIdxOf c s = some i) : i < s.length := by
  induction s generalizing i with
  | nil => simp [lastIdxOf] at h
  | cons x xs ih =>
    unfold lastIdxOf at h
    cases hrec : lastIdxOf c xs with
    | some j =>
      rw [hrec] at h
      injection h with h'
      subst h'
      have := ih hrec
      simp only [List.length_cons]
      omega
    | none =>
      rw [hrec] at h
      by_cases hx : x = c
      · rw [if_pos hx] at h
        injection h with h'
        subst h'
        simp
      · rw [if_neg hx] at h
        exact Option.noConfusion h

theorem splitChar_not_mem {c : Char} {s : List Char} (h : c ∉ s) :
    splitChar c s = [s] := by
  induction s with
  | nil => rfl
  | cons x xs ih =>
    have hx : ¬x = c := fun hc => h (hc ▸ List.mem_cons_self x xs)
    have hxs : c ∉ xs := fun hc => h (List.mem_cons_of_mem x hc)
    unfold splitChar
    rw [if_neg hx, ih hxs]

theorem splitChar_mem {c : Char} {s : List Char} (h : c ∈ s) :
    ∃ h0 t0, splitChar c s = h0 :: t0 ∧ t0 ≠ [] := by
  induction s with
  | nil => simp at h
  | cons x xs ih =>
    by_cases hx : x = c
    · obtain ⟨h0, t0, hsp⟩ : ∃ h0 t0, splitChar c xs = h0 :: t0 := by
        cases hsp : splitChar c xs with
        | nil => exact absurd hsp (splitChar_ne_nil c xs)
        | cons a b => exact ⟨a, b, rfl⟩
      refine ⟨[], h0 :: t0, ?_, by simp⟩
      unfold splitChar
      rw [if_pos hx, hsp]
    · have hmem : c ∈ xs := by
        rcases List.mem_cons.mp h with hc | hc
        · exact absurd hc.symm hx
        · exact hc
      obtain ⟨h0, t0, hsp, hne⟩ := ih hmem
      refine ⟨x :: h0, t0, ?_, hne⟩
      unfold splitChar
      rw [if_neg hx, hsp]

theorem getLastD_indep {l : List α} (h : l ≠ []) (a b : α) :
    l.getLastD a = l.getLastD b := by
  cases l with
  | nil => exact absurd rfl h
  | cons x xs => rw [List.getLastD_cons, List.getLastD_cons]

theorem splitChar_getLastD_none {c : Char} {t : List Char}
    (h : lastIdxOf c t = none) : (splitChar c t).getLastD [] = t := by
  rw [splitChar_not_mem (lastIdxOf_eq_none.mp h)]
  rfl

theorem splitChar_getLastD_some {c : Char} {t : List Char} {i : Nat}
    (h : lastIdxOf c t = some i) :
    (splitChar c t).getLastD [] = t.drop (i + 1) := by
  induction t generalizing i with
  | nil => simp [lastIdxOf] at h
  | cons x xs ih =>
    unfold lastIdxOf at h
    cases hrec : lastIdxOf c xs with
    | some j =>
      rw [hrec] at h
      injection h with h'
      subst h'
      have hmem : c ∈ xs := by
        by_contra hc
        rw [lastIdxOf_eq_none.mpr hc] at hrec
        exact Option.noConfusion hrec
      unfold splitChar
      by_cases hx : x = c
      · rw [if_pos hx]
        obtain ⟨h0, t0, hsp⟩ : ∃ h0 t0, splitChar c xs = h0 :: t0 := by
          cases hsp : splitChar c xs with
          | nil => exact absurd hsp (splitChar_ne_nil c xs)
          | cons a b => exact ⟨a, b, rfl⟩
        rw [hsp, List.getLastD_cons, ← hsp, ih hrec]
        rw [List.drop_succ_cons]
      · rw [if_neg hx]
        obtain ⟨h0, t0, hsp, hne⟩ := splitChar_mem hmem
        rw [hsp, List.getLastD_cons, getLastD_indep hne (x :: h0) h0,
          ← List.getLastD_cons [] h0 t0, ← hsp, ih hrec]
        rw [List.drop_succ_cons]
    | none =>
      rw [hrec] at h
      by_cases hx : x = c
      · rw [if_pos hx] at h
        injection h with h'
        subst h'
        have hnm : c ∉ xs := lastIdxOf_eq_none.mp hrec
        unfold splitChar
        rw [if_pos hx, splitChar_not_mem hnm]
        rfl
      · rw [if_neg hx] at h
        exact Option.noConfusion h

theorem endsWith_exists {s : List Char} {c : Char} :
    s.getLast? = some c ↔ ∃ t, s = t ++ [c] := by
  constructor
  · intro h
    have hne : s ≠ [] := by
      rintro rfl
      simp at h
    refine ⟨s.dropLast, ?_⟩
    have h2 := List.dropLast_append_getLast hne
    rw [List.getLast?_eq_getLast s hne] at h
    injection h with h'
    rw [h'] at h2
    exact h2.symm
  · rintro ⟨t, rfl⟩
    exact List.getLast?_concat t

theorem jsEndsWithChar_iff {s : List Char} {c : Char} :
    jsEndsWithChar s c = true ↔ ∃ t, s = t ++ [c] := by
  rw [← endsWith_exists]
  unfold jsEndsWithChar
  cases h : s.getLast? with
  | none => simp
  | some x => simp [h]

theorem folderNameOf_concat (t : List Char) :
    folderNameOf (t ++ ['/']) = lastSegment (t ++ ['/']) := by
  cases t with
  | nil => decide
  | cons x0 xs0 =>
    set t := x0 :: xs0 with ht
    have htlen : 1 ≤ t.length := by simp [ht]
    unfold folderNameOf lastSegment
    rw [List.dropLast_concat]
    have hfrom : jsLastIndexOfFrom (t ++ ['/']) '/'
        (((t ++ ['/']).length : Int) - 2) = optIdxToJs (lastIdxOf '/' t) := by
      unfold jsLastIndexOfFrom
      have hlen : (t ++ ['/']).length = t.length + 1 := by simp
      rw [hlen]
      have hnotneg : ¬(((t.length + 1 : Nat) : Int) - 2 < 0) := by
        push_cast
        omega
      rw [if_neg hnotneg]
      have htonat : (((t.length + 1 : Nat) : Int) - 2).toNat = t.length - 1 := by
        omega
      rw [htonat]
      have hmin : min (t.length - 1) (t.length + 1) = t.length - 1 := by omega
      rw [hmin]
      have hsucc : t.length - 1 + 1 = t.length := by omega
      dsimp only
      rw [hsucc, List.take_left]
    rw [hfrom]
    unfold jsSlice
    have hlen : (t ++ ['/']).length = t.length + 1 := by simp
    simp only [hlen]
    have henval : (((t.length + 1 : Nat) : Int) + -1).toNat = t.length := by omega
    rw [if_pos (by norm_num : (-1 : Int) < 0), henval, List.take_left]
    cases hidx : lastIdxOf '/' t with
    | none =>
      simp only [optIdxToJs]
      rw [splitChar_getLastD_none hidx]
      norm_num
    | some i =>
      simp only [optIdxToJs]
      have hnn : ¬((i : Int) + 1 < 0) := by omega
      rw [if_neg hnn]
      have hlt := lastIdxOf_lt_length hidx
      have h1 : ((i : Int) + 1).toNat = i + 1 := by omega
      have h2 : min (i + 1) (t.length + 1) = i + 1 := by omega
      rw [h1, h2, splitChar_getLastD_some hidx]

theorem jsSlice_key_dropLast (p : List Char) : jsSlice p 0 (-1) = p.dropLast := by
  unfold jsSlice
  simp only
  norm_num
  rw [List.dropLast_eq_take]
  cases p with
  | nil => simp
  | cons x xs =>
    congr 1
    simp only [List.length_cons]
    omega

/-- C2: `listFiles` turns each common prefix `p` ending in '/' into a
folder entry that appears in its result, whose key is `p` without the
trailing slash, whose name is the last path segment of `p`, with
`isFolder = true` and `size = 0`; and `extractFileMetadata` flags an entry
as a folder exactly when its (effective) object key ends with '/'. -/
theorem listFiles_folder_entries :
    ∀ path resp now p (o : S3Object) (k : Option (List Char)),
      p ∈ resp.CommonPrefixes → p.getLast? = some '/' →
      (folderEntry now p ∈ listFiles path resp now ∧
        (folderEntry now p).key = p.dropLast ∧
        (folderEntry now p).name = lastSegment p ∧
        (folderEntry now p).isFolder = true ∧
        (folderEntry now p).size = 0) ∧
      ((extractFileMetadata o k).isFolder = true ↔
        ∃ t, effectiveKey k o = t ++ ['/']) := by
  intro path resp now p o k hp hslash
  obtain ⟨t, rfl⟩ := endsWith_exists.mp hslash
  constructor
  · refine ⟨?_, ?_, ?_, rfl, rfl⟩
    · have hperm := List.mergeSort_perm
        ((resp.CommonPrefixes.map (folderEntry now)) ++
          ((resp.Contents.filter
            (fun o => decide (o.Key ≠ listPrefixOf path))).map fileEntryOf))
        entryLe
      rw [← listFiles_eq] at hperm
      exact hperm.mem_iff.mpr
        (List.mem_append_left _ (List.mem_map_of_mem (folderEntry now) hp))
    · exact jsSlice_key_dropLast (t ++ ['/'])
    · exact folderNameOf_concat t
  · exact jsEndsWithChar_iff

/-- Witness for C2 on the common prefix `"docs/"` of the sample response
and the sample object. -/
theorem listFiles_folder_entries_witness :
    (folderEntry ['t'] ['d', 'o', 'c', 's', '/'] ∈ listFiles [] sampleResp ['t'] ∧
      (folderEntry ['t'] ['d', 'o', 'c', 's', '/']).key =
        (['d', 'o', 'c', 's', '/'] : List Char).dropLast ∧
      (folderEntry ['t'] ['d', 'o', 'c', 's', '/']).name =
        lastSegment ['d', 'o', 'c', 's', '/'] ∧
      (folderEntry ['t'] ['d', 'o', 'c', 's', '/']).isFolder = true ∧
      (folderEntry ['t'] ['d', 'o', 'c', 's', '/']).size = 0) ∧
    ((extractFileMetadata sampleObj none).isFolder = true ↔
      ∃ t, effectiveKey none sampleObj = t ++ ['/']) :=
  listFiles_folder_entries [] sampleResp ['t'] ['d', 'o', 'c', 's', '/']
    sampleObj none (by decide) (by decide)

/-! ### Defensive serialization (C7) -/

mutual
theorem pureJson_jsonOf : ∀ v : JsValue, isPureJson v = true →
    jsonOf v = Except.ok (some v)
  | .vnull, _ => rfl
  | .vbool _, _ => rfl
  | .vnum _, _ => rfl
  | .vstr _, _ => rfl
  | .vundef, h => by simp [isPureJson] at h
  | .vbig _, h => by simp [isPureJson] at h
  | .vfun, h => by simp [isPureJson] at h
  | .vdate _, h => by simp [isPureJson] at h
  | .verr _, h => by simp [isPureJson] at h
  | .varr es, h => by
    have hr := pureJson_jsonElems es (by simpa [isPureJson] using h)
    rw [jsonOf, hr]
    rfl
  | .vobj fs, h => by
    have hr := pureJson_jsonFields fs (by simpa [isPureJson] using h)
    rw [jsonOf, hr]
    rfl
theorem pureJson_jsonElems : ∀ es : JsElems, pureJsonElems es = true →
    jsonElems es = Except.ok es
  | .nil, _ => rfl
  | .cons v r, h => by
    have h1 : isPureJson v = true := by
      have := h
      simp only [pureJsonElems, Bool.and_eq_true] at this
      exact this.1
    have h2 : pureJsonElems r = true := by
      have := h
      simp only [pureJsonElems, Bool.and_eq_true] at this
      exact this.2
    have hv := pureJson_jsonOf v h1
    have hr := pureJson_jsonElems r h2
    rw [jsonElems, hv, hr]
    rfl
theorem pureJson_jsonFields : ∀ fs : JsFields, pureJsonFields fs = true →
    jsonFields fs = Except.ok fs
  | .nil, _ => rfl
  | .cons k v r, h => by
    have h1 : isPureJson v = true := by
      have := h
      simp only [pureJsonFields, Bool.and_eq_true] at this
      exact this.1
    have h2 : pureJsonFields r = true := by
      have := h
      simp only [pureJsonFields, Bool.and_eq_true] at this
      exact this.2
    have hv := pureJson_jsonOf v h1
    have hr := pureJson_jsonFields r h2
    rw [jsonFields, hv, hr]
    rfl
end

mutual
theorem jsonOf_pure : ∀ v w : JsValue, jsonOf v = Except.ok (some w) →
    isPureJson w = true
  | .vnull, w, h => by
    injection h with h'
    injection h' with h''
    rw [← h'']
    rfl
  | .vbool b, w, h => by
    injection h with h'
    injection h' with h''
    rw [← h'']
    rfl
  | .vnum n, w, h => by
    injection h with h'
    injection h' with h''
    rw [← h'']
    rfl
  | .vstr s, w, h => by
    injection h with h'
    injection h' with h''
    rw [← h'']
    rfl
  | .vdate iso, w, h => by
    injection h with h'
    injection h' with h''
    rw [← h'']
    rfl
  | .verr m, w, h => by
    injection h with h'
    injection h' with h''
    rw [← h'']
    rfl
  | .vundef, w, h => by simp [jsonOf] at h
  | .vfun, w, h => by simp [jsonOf] at h
  | .vbig n, w, h => by simp [jsonOf] at h
  | .varr es, w, h => by
    rw [jsonOf] at h
    cases hes : jsonElems es with
    | error e => rw [hes] at h; exact Except.noConfusion h
    | ok es2 =>
      rw [hes] at h
      injection h with h'
      injection h' with h''
      rw [← h'']
      have := jsonElems_pure es es2 hes
      simpa [isPureJson] using this
  | .vobj fs, w, h => by
    rw [jsonOf] at h
    cases hfs : jsonFields fs with
    | error e => rw [hfs] at h; exact Except.noConfusion h
    | ok fs2 =>
      rw [hfs] at h
      injection h with h'
      injection h' with h''
      rw [← h'']
      have := jsonFields_pure fs fs2 hfs
      simpa [isPureJson] using this
theorem jsonElems_pure : ∀ es es2 : JsElems, jsonElems es = Except.ok es2 →
    pureJsonElems es2 = true
  | .nil, es2, h => by
    injection h with h'
    rw [← h']
    rfl
  | .cons v r, es2, h => by
    rw [jsonElems] at h
    cases hv : jsonOf v with
    | error e => rw [hv] at h; exact Except.noConfusion h
    | ok rv =>
      rw [hv] at h
      cases hr : jsonElems r with
      | error e => rw [hr] at h; exact Except.noConfusion h
      | ok rr =>
        rw [hr] at h
        have hrr := jsonElems_pure r rr hr
        cases rv with
        | none =>
          injection h with h'
          rw [← h']
          simpa [pureJsonElems, isPureJson] using hrr
        | some wv =>
          injection h with h'
          rw [← h']
          have hwv := jsonOf_pure v wv hv
          simp [pureJsonElems, hwv, hrr]
theorem jsonFields_pure : ∀ fs fs2 : JsFields, jsonFields fs = Except.ok fs2 →
    pureJsonFields fs2 = true
  | .nil, fs2, h => by
    injection h with h'
    rw [← h']
    rfl
  | .cons k v r, fs2, h => by
    rw [jsonFields] at h
    cases hv : jsonOf v with
    | error e => rw [hv] at h; exact Except.noConfusion h
    | ok rv =>
      rw [hv] at h
      cases hr : jsonFields r with
      | error e => rw [hr] at h; exact Except.noConfusion h
      | ok rr =>
        rw [hr] at h
        have hrr := jsonFields_pure r rr hr
        cases rv with
        | none =>
          injection h with h'
          rw [← h']
          exact hrr
        | some wv =>
          injection h with h'
          rw [← h']
          have hwv := jsonOf_pure v wv hv
          simp [pureJsonFields, hwv, hrr]
end

mutual
theorem jsonOf_error_iff : ∀ v : JsValue,
    (jsonOf v = Except.error () ↔ hasBigInt v = true)
  | .vnull => by simp [jsonOf, hasBigInt]
  | .vundef => by simp [jsonOf, hasBigInt]
  | .vbool b => by simp [jsonOf, hasBigInt]
  | .vnum n => by simp [jsonOf, hasBigInt]
  | .vstr s => by simp [jsonOf, hasBigInt]
  | .vbig n => by simp [jsonOf, hasBigInt]
  | .vfun => by simp [jsonOf, hasBigInt]
  | .vdate iso => by simp [jsonOf, hasBigInt]
  | .verr m => by simp [jsonOf, hasBigInt]
  | .varr es => by
    have hrec := jsonElems_error_iff es
    rw [jsonOf]
    cases hes : jsonElems es with
    | error e =>
      cases e
      simp only [hasBigInt]
      rw [← hrec]
      constructor
      · intro _; exact hes
      · intro _; rfl
    | ok es2 =>
      rw [hes] at hrec
      simp only [hasBigInt]
      rw [← hrec]
      constructor
      · intro hcon; exact Except.noConfusion hcon
      · intro hcon; exact Except.noConfusion hcon
  | .vobj fs => by
    have hrec := jsonFields_error_iff fs
    rw [jsonOf]
    cases hfs : jsonFields fs with
    | error e =>
      cases e
      simp only [hasBigInt]
      rw [← hrec]
      constructor
      · intro _; exact hfs
      · intro _; rfl
    | ok fs2 =>
      rw [hfs] at hrec
      simp only [hasBigInt]
      rw [← hrec]
      constructor
      · intro hcon; exact Except.noConfusion hcon
      · intro hcon; exact Except.noConfusion hcon
theorem jsonElems_error_iff : ∀ es : JsElems,
    (jsonElems es = Except.error () ↔ elemsHaveBigInt es = true)
  | .nil => by simp [jsonElems, elemsHaveBigInt]
  | .cons v r => by
    have hv := jsonOf_error_iff v
    have hr := jsonElems_error_iff r
    rw [jsonElems]
    simp only [elemsHaveBigInt, Bool.or_eq_true]
    cases hjv : jsonOf v with
    | error e =>
      cases e
      rw [hjv] at hv
      constructor
      · intro _; exact Or.inl (hv.mp rfl)
      · intro _; rfl
    | ok rv =>
      rw [hjv] at hv
      have hvfalse : ¬hasBigInt v = true := fun hb =>
        Except.noConfusion (hv.mpr hb)
      cases hjr : jsonElems r with
      | error e =>
        cases e
        rw [hjr] at hr
        constructor
        · intro _; exact Or.inr (hr.mp rfl)
        · intro _; rfl
      | ok rr =>
        rw [hjr] at hr
        have hrfalse : ¬elemsHaveBigInt r = true := fun hb =>
          Except.noConfusion (hr.mpr hb)
        constructor
        · intro hcon
          cases rv <;> exact Except.noConfusion hcon
        · rintro (hb | hb)
          · exact absurd hb hvfalse
          · exact absurd hb hrfalse
theorem jsonFields_error_iff : ∀ fs : JsFields,
    (jsonFields fs = Except.error () ↔ fieldsHaveBigInt fs = true)
  | .nil => by simp [jsonFields, fieldsHaveBigInt]
  | .cons k v r => by
    have hv := jsonOf_error_iff v
    have hr := jsonFields_error_iff r
    rw [jsonFields]
    simp only [fieldsHaveBigInt, Bool.or_eq_true]
    cases hjv : jsonOf v with
    | error e =>
      cases e
      rw [hjv] at hv
      constructor
      · intro _; exact Or.inl (hv.mp rfl)
      · intro _; rfl
    | ok rv =>
      rw [hjv] at hv
      have hvfalse : ¬hasBigInt v = true := fun hb =>
        Except.noConfusion (hv.mpr hb)
      cases hjr : jsonFields r with
      | error e =>
        cases e
        rw [hjr] at hr
        constructor
        · intro _; exact Or.inr (hr.mp rfl)
        · intro _; rfl
      | ok rr =>
        rw [hjr] at hr
        have hrfalse : ¬fieldsHaveBigInt r = true := fun hb =>
          Except.noConfusion (hr.mpr hb)
        constructor
        · intro hcon
          cases rv <;> exact Except.noConfusion hcon
        · rintro (hb | hb)
          · exact absurd hb hvfalse
          · exact absurd hb hrfalse
end

mutual
theorem sop_hasBigInt : ∀ v : JsValue,
    hasBigInt (serializeObjectPure v) = hasBigInt v
  | .vnull => rfl
  | .vundef => rfl
  | .vbool _ => rfl
  | .vnum _ => rfl
  | .vstr _ => rfl
  | .vbig _ => rfl
  | .vfun => rfl
  | .vdate _ => rfl
  | .verr _ => rfl
  | .varr es => by
    rw [serializeObjectPure]
    show elemsHaveBigInt (serializeElems es) = elemsHaveBigInt es
    exact selems_hasBigInt es
  | .vobj fs => by
    rw [serializeObjectPure]
    show fieldsHaveBigInt (serializeFields fs) = fieldsHaveBigInt fs
    exact sfields_hasBigInt fs
theorem selems_hasBigInt : ∀ es : JsElems,
    elemsHaveBigInt (serializeElems es) = elemsHaveBigInt es
  | .nil => rfl
  | .cons v r => by
    rw [serializeElems]
    show (hasBigInt (serializeObjectPure v) || elemsHaveBigInt (serializeElems r)) = _
    rw [sop_hasBigInt v, selems_hasBigInt r]
    rfl
theorem sfields_hasBigInt : ∀ fs : JsFields,
    fieldsHaveBigInt (serializeFields fs) = fieldsHaveBigInt fs
  | .nil => rfl
  | .cons k v r => by
    rw [serializeFields]
    show (hasBigInt (serializeObjectPure v) || fieldsHaveBigInt (serializeFields r)) = _
    rw [sop_hasBigInt v, sfields_hasBigInt r]
    rfl
end

mutual
theorem sop_idem : ∀ v : JsValue,
    serializeObjectPure (serializeObjectPure v) = serializeObjectPure v
  | .vnull => rfl
  | .vundef => rfl
  | .vbool _ => rfl
  | .vnum _ => rfl
  | .vstr _ => rfl
  | .vbig _ => rfl
  | .vfun => rfl
  | .vdate _ => rfl
  | .verr _ => rfl
  | .varr es => by
    rw [serializeObjectPure, serializeObjectPure]
    rw [selems_idem es]
  | .vobj fs => by
    rw [serializeObjectPure, serializeObjectPure]
    rw [sfields_idem fs]
theorem selems_idem : ∀ es : JsElems,
    serializeElems (serializeElems es) = serializeElems es
  | .nil => rfl
  | .cons v r => by
    rw [serializeElems, serializeElems]
    rw [sop_idem v, selems_idem r]
theorem sfields_idem : ∀ fs : JsFields,
    serializeFields (serializeFields fs) = serializeFields fs
  | .nil => rfl
  | .cons k v r => by
    rw [serializeFields, serializeFields]
    rw [sop_idem v, sfields_idem r]
end

theorem roundTrip_pure {x v : JsValue} (h : roundTrip x = some v) :
    isPureJson v = true := by
  rw [roundTrip] at h
  cases hj : jsonOf x with
  | error e => rw [hj] at h; exact Option.noConfusion h
  | ok o =>
    cases o with
    | none => rw [hj] at h; exact Option.noConfusion h
    | some w =>
      rw [hj] at h
      injection h with h'
      rw [← h']
      exact jsonOf_pure x w hj

theorem roundTrip_of_pure {v : JsValue} (h : isPureJson v = true) :
    roundTrip v = some v := by
  rw [roundTrip, pureJson_jsonOf v h]

theorem jsonOf_ok_none {x : JsValue} (h : jsonOf x = Except.ok none) :
    x = JsValue.vundef ∨ x = JsValue.vfun := by
  cases x with
  | vundef => exact Or.inl rfl
  | vfun => exact Or.inr rfl
  | vnull => exact Option.noConfusion (Except.ok.inj h)
  | vbool b => exact Option.noConfusion (Except.ok.inj h)
  | vnum n => exact Option.noConfusion (Except.ok.inj h)
  | vstr s => exact Option.noConfusion (Except.ok.inj h)
  | vbig n => exact Except.noConfusion h
  | vdate iso => exact Option.noConfusion (Except.ok.inj h)
  | verr m => exact Option.noConfusion (Except.ok.inj h)
  | varr es =>
    rw [jsonOf] at h
    cases hes : jsonElems es with
    | error e => rw [hes] at h; exact Except.noConfusion h
    | ok es2 => rw [hes] at h; exact Option.noConfusion (Except.ok.inj h)
  | vobj fs =>
    rw [jsonOf] at h
    cases hfs : jsonFields fs with
    | error e => rw [hfs] at h; exact Except.noConfusion h
    | ok fs2 => rw [hfs] at h; exact Option.noConfusion (Except.ok.inj h)

theorem ms_idem (x : JsValue) :
    makeSerializable (makeSerializable x) = makeSerializable x := by
  by_cases h : isObjectType x = true
  · have hmsx : makeSerializable x =
        match roundTrip x with
        | some v => v
        | none => JsValue.vobj JsFields.nil := by
      rw [makeSerializable, if_pos h]
    rw [hmsx]
    cases hrt : roundTrip x with
    | some v =>
      have hv := roundTrip_pure hrt
      by_cases hov : isObjectType v = true
      · rw [makeSerializable, if_pos hov, roundTrip_of_pure hv]
      · rw [makeSerializable, if_neg hov]
    | none => rfl
  · have hx : makeSerializable x = x := by rw [makeSerializable, if_neg h]
    rw [hx, hx]

theorem ds_idem (x : JsValue) :
    deepSerialize (deepSerialize x) = deepSerialize x := by
  have hdsx : deepSerialize x =
      match roundTrip x with
      | some v => v
      | none => serializeObjectPure x := rfl
  cases hrt : roundTrip x with
  | some v =>
    have h1 : deepSerialize x = v := by rw [hdsx, hrt]
    rw [h1]
    have hv := roundTrip_pure hrt
    rw [deepSerialize, roundTrip_of_pure hv]
  | none =>
    have h1 : deepSerialize x = serializeObjectPure x := by rw [hdsx, hrt]
    rw [h1]
    rw [roundTrip] at hrt
    cases hj : jsonOf x with
    | error e =>
      cases e
      have hbig : hasBigInt x = true := (jsonOf_error_iff x).mp hj
      have hbig2 : hasBigInt (serializeObjectPure x) = true := by
        rw [sop_hasBigInt]
        exact hbig
      have herr : jsonOf (serializeObjectPure x) = Except.error () :=
        (jsonOf_error_iff _).mpr hbig2
      rw [deepSerialize]
      rw [show roundTrip (serializeObjectPure x) = none from by
        rw [roundTrip, herr]]
      exact sop_idem x
    | ok o =>
      cases o with
      | some w =>
        rw [hj] at hrt
        exact Option.noConfusion hrt
      | none =>
        rcases jsonOf_ok_none hj with rfl | rfl
        · rfl
        · rfl

theorem ms_nonobject (x : JsValue) (h : isObjectType x = false) :
    makeSerializable x = x := by
  rw [makeSerializable, if_neg (by simp [h])]

theorem ds_nonobject (x : JsValue) (h : isObjectType x = false) :
    deepSerialize x = x := by
  cases x <;> first | rfl | simp [isObjectType] at h

/-- C7 counterexample: the claim says a failing JSON round trip yields the
empty object for `deepSerialize` too, but `deepSerialize({a: 1n})` falls
back to `serializeObject`, which returns `{a: 1n}` itself, not `{}`. -/
theorem deepSerialize_fail_counterexample :
    roundTrip failObj = none ∧
    deepSerialize failObj ≠ JsValue.vobj JsFields.nil := by
  constructor
  · rfl
  · decide

/-- C7 (amended): `makeSerializable` and `deepSerialize` are idempotent and
return non-object values (null, undefined, numbers, strings, booleans, and
also BigInt and functions) unchanged; on an object whose JSON round trip
fails, `makeSerializable` returns the empty object `{}` while
`deepSerialize` returns `serializeObject` of the input instead. -/
theorem serialization_idempotent :
    (∀ x, makeSerializable (makeSerializable x) = makeSerializable x) ∧
    (∀ x, deepSerialize (deepSerialize x) = deepSerialize x) ∧
    (∀ x, isObjectType x = false →
      makeSerializable x = x ∧ deepSerialize x = x) ∧
    (∀ x, isObjectType x = true → roundTrip x = none →
      makeSerializable x = JsValue.vobj JsFields.nil ∧
        deepSerialize x = serializeObjectPure x) := by
  refine ⟨ms_idem, ds_idem, ?_, ?_⟩
  · intro x h
    exact ⟨ms_nonobject x h, ds_nonobject x h⟩
  · intro x h hrt
    constructor
    · rw [makeSerializable, if_pos h, hrt]
    · rw [deepSerialize, hrt]

/-- Witness for C7 at `{a: 1n}`: its round trip fails, `makeSerializable`
gives `{}` and `deepSerialize` gives `serializeObject` of it. -/
theorem serialization_idempotent_witness :
    (isObjectType failObj = true ∧ roundTrip failObj = none) ∧
    (makeSerializable failObj = JsValue.vobj JsFields.nil ∧
      deepSerialize failObj = serializeObjectPure failObj) :=
  ⟨⟨rfl, rfl⟩, serialization_idempotent.2.2.2 failObj rfl rfl⟩

/-! ### serializeObject on object graphs (C8) -/

theorem lookup_mem_heapIds {h : Heap} {i : Nat} {nv : HNodeVal}
    (hlk : h.lookup i = some nv) : i ∈ heapIds h := by
  induction h with
  | nil => simp [List.lookup] at hlk
  | cons p rest ih =>
    obtain ⟨j, nv'⟩ := p
    by_cases hij : i = j
    · subst hij
      simp [heapIds]
    · have hbeq : (i == j) = false := by simpa using hij
      rw [List.lookup, hbeq] at hlk
      have := ih hlk
      simp only [heapIds, List.map_cons, List.mem_toFinset] at this ⊢
      exact List.mem_cons_of_mem _ this

theorem unvisited_insert_le (h : Heap) (v : Finset Nat) (i : Nat) :
    unvisited h (insert i v) ≤ unvisited h v := by
  unfold unvisited
  apply Finset.card_le_card
  exact Finset.sdiff_subset_sdiff (Finset.Subset.refl _) (Finset.subset_insert _ _)

theorem unvisited_insert_lt {h : Heap} {v : Finset Nat} {i : Nat}
    (hmem : i ∈ heapIds h) (hnv : i ∉ v) :
    unvisited h (insert i v) < unvisited h v := by
  unfold unvisited
  have hi : i ∈ heapIds h \ v := Finset.mem_sdiff.mpr ⟨hmem, hnv⟩
  have hsub : heapIds h \ insert i v = (heapIds h \ v).erase i := by
    ext a
    simp only [Finset.mem_sdiff, Finset.mem_erase, Finset.mem_insert]
    tauto
  rw [hsub]
  have hcard := Finset.card_erase_of_mem hi
  have hpos : 0 < (heapIds h \ v).card := Finset.card_pos.mpr ⟨i, hi⟩
  omega

mutual
theorem serializeRef_total : ∀ (fuel : Nat) (h : Heap) (v : Finset Nat)
    (r : HRef), unvisited h v < fuel →
    ∃ out v2, serializeRef fuel h v r = some (out, v2) ∧
      unvisited h v2 ≤ unvisited h v
  | 0, _, v, _ => fun hf => absurd hf (by omega)
  | fuel + 1, h, v, .atom p => fun _ =>
    ⟨primToJs p, v, by rw [serializeRef], le_refl _⟩
  | fuel + 1, h, v, .node i => fun hf => by
    by_cases hvis : i ∈ v
    · exact ⟨.vstr "[Circular Reference]", v,
        by rw [serializeRef, if_pos hvis], le_refl _⟩
    · cases hlk : h.lookup i with
      | none =>
        exact ⟨.vundef, v, by rw [serializeRef, if_neg hvis, hlk], le_refl _⟩
      | some nv =>
        have hmem : i ∈ heapIds h := lookup_mem_heapIds hlk
        have hlt := unvisited_insert_lt hmem hvis
        have hdec : unvisited h (insert i v) < fuel := by omega
        cases nv with
        | harr elems =>
          obtain ⟨out, v2, heq, hle⟩ :=
            serializeElemsH_total fuel h (insert i v) elems hdec
          refine ⟨.varr out, v2, ?_, by omega⟩
          rw [serializeRef, if_neg hvis, hlk]
          dsimp only
          rw [heq]
        | hobj fields =>
          obtain ⟨out, v2, heq, hle⟩ :=
            serializeFieldsH_total fuel h (insert i v) fields hdec
          refine ⟨.vobj out, v2, ?_, by omega⟩
          rw [serializeRef, if_neg hvis, hlk]
          dsimp only
          rw [heq]
        | hspecial ctor toStr =>
          refine ⟨.vobj (.cons "type" (.vstr ctor)
            (.cons "toString" (.vstr toStr) .nil)), insert i v, ?_, by omega⟩
          rw [serializeRef, if_neg hvis, hlk]
        | hdate iso =>
          refine ⟨.vstr iso, insert i v, ?_, by omega⟩
          rw [serializeRef, if_neg hvis, hlk]
termination_by fuel _ _ _ => (fuel, 0)
theorem serializeElemsH_total : ∀ (fuel : Nat) (h : Heap) (v : Finset Nat)
    (rs : List HRef), unvisited h v < fuel →
    ∃ out v2, serializeElemsH fuel h v rs = some (out, v2) ∧
      unvisited h v2 ≤ unvisited h v
  | fuel, _, v, [] => fun _ => ⟨.nil, v, by rw [serializeElemsH], le_refl _⟩
  | fuel, h, v, r :: rs => fun hf => by
    obtain ⟨x, v1, he1, hle1⟩ := serializeRef_total fuel h v r hf
    obtain ⟨xs, v2, he2, hle2⟩ :=
      serializeElemsH_total fuel h v1 rs (by omega)
    refine ⟨.cons x xs, v2, ?_, by omega⟩
    rw [serializeElemsH, he1]
    dsimp only
    rw [he2]
termination_by fuel _ _ rs => (fuel, rs.length + 1)
theorem serializeFieldsH_total : ∀ (fuel : Nat) (h : Heap) (v : Finset Nat)
    (rs : List (String × HRef)), unvisited h v < fuel →
    ∃ out v2, serializeFieldsH fuel h v rs = some (out, v2) ∧
      unvisited h v2 ≤ unvisited h v
  | fuel, _, v, [] => fun _ => ⟨.nil, v, by rw [serializeFieldsH], le_refl _⟩
  | fuel, h, v, (k, r) :: rs => fun hf => by
    obtain ⟨x, v1, he1, hle1⟩ := serializeRef_total fuel h v r hf
    obtain ⟨xs, v2, he2, hle2⟩ :=
      serializeFieldsH_total fuel h v1 rs (by omega)
    refine ⟨.cons k x xs, v2, ?_, by omega⟩
    rw [serializeFieldsH, he1]
    dsimp only
    rw [he2]
termination_by fuel _ _ rs => (fuel, rs.length + 1)
end

/-- C8: the `serializeObject` recursion is well-founded on the set of
not-yet-visited heap nodes: with fuel exceeding the number of unvisited
nodes the fuelled model never exhausts its fuel (so the original unfuelled
recursion terminates on every object graph, cyclic ones included), and a
revisited node is replaced by the `'[Circular Reference]'` marker instead of
being recursed into. -/
theorem serializeObject_terminates :
    (∀ fuel (h : Heap) (v : Finset Nat) (r : HRef), unvisited h v < fuel →
      (serializeRef fuel h v r).isSome = true) ∧
    (∀ fuel (h : Heap) (v : Finset Nat) (i : Nat), i ∈ v →
      serializeRef (fuel + 1) h v (HRef.node i) =
        some (JsValue.vstr "[Circular Reference]", v)) := by
  constructor
  · intro fuel h v r hf
    obtain ⟨out, v2, heq, _⟩ := serializeRef_total fuel h v r hf
    rw [heq]
    rfl
  · intro fuel h v i hvis
    rw [serializeRef, if_pos hvis]

/-- Witness for C8 on the one-node cyclic heap `{ self: <itself> }`: fuel 2
exceeds its single unvisited node and serialization succeeds, and once node
0 is visited it serializes to the circular-reference marker. -/
theorem serializeObject_terminates_witness :
    (unvisited cycHeap ∅ < 2 ∧
      (serializeRef 2 cycHeap ∅ (HRef.node 0)).isSome = true) ∧
    ((0 : Nat) ∈ ({0} : Finset Nat) ∧
      serializeRef 2 cycHeap {0} (HRef.node 0) =
        some (JsValue.vstr "[Circular Reference]", {0})) :=
  ⟨⟨by decide, serializeObject_terminates.1 2 cycHeap ∅ (HRef.node 0) (by decide)⟩,
    ⟨by decide, serializeObject_terminates.2 1 cycHeap {0} 0 (by decide)⟩⟩
